import Mathlib

/-! # lb: a terminal text editor

A shallow embedding of the editing engine of `lb.c` (row operations, editor
operations, file input/output, scrolling and the key decoder) together with
theorems about it.

Conventions of the embedding:

* a `char` is the value of its byte, a natural number below 256;
* a C `int` that can be negative (cursor, offsets, screen size, insertion
  column, key code) is an `Int`; counts that the program only ever increments
  from zero (`length`, `render_length`, `num_rows`) are `Nat`.  Arithmetic is
  exact: the program is studied on values for which `int` does not overflow;
* a heap buffer is the list of the bytes the program has stored in it.  For
  `chars` these are the bytes at the indices `0 .. length - 1`; the slot after
  them, reserved for a terminator, is read by no function and is not part of
  the list.  For `render` these are the `render_length` bytes written by
  `editorUpdateRow`.
-/

namespace Lb

/-! ## defines -/

/-- The macro `TAB_LENGTH`. -/
def TAB_LENGTH : Nat := 4

/-- The largest value of `size_t` (LP64). -/
def SIZE_MAX : Nat := 2 ^ 64 - 1

/-- The struct `erow`: one row of text and its tab-expanded rendering. -/
structure erow where
  length : Nat
  render_length : Nat
  chars : List Nat
  render : List Nat
deriving DecidableEq

/-! ## row operations -/

/-- The inner loop of `editorUpdateRow`,
`while (rlength % TAB_LENGTH != 0) row->render[rlength++] = ' ';`
acting on the pair `(render, rlength)`.  The first argument bounds the number
of iterations; `padSpaces_exit` shows that `TAB_LENGTH` iterations are enough
for the loop to leave through its condition. -/
def padSpaces : Nat → List Nat × Nat → List Nat × Nat
  | 0, st => st
  | fuel + 1, st =>
    if st.2 % TAB_LENGTH != 0 then padSpaces fuel (st.1 ++ [32], st.2 + 1) else st

/-- One iteration of the second `for` loop of `editorUpdateRow` on the byte
`ch = row->chars[j]`: a tab writes a space and pads to the next tab stop, any
other byte is copied. -/
def updateRowStep (st : List Nat × Nat) (ch : Nat) : List Nat × Nat :=
  if ch = 9 then padSpaces TAB_LENGTH (st.1 ++ [32], st.2 + 1)
  else (st.1 ++ [ch], st.2 + 1)

/-- The function `editorUpdateRow`: the render buffer is rebuilt from the bytes
`chars[0 .. length-1]`, and `render_length` is the final value of the counter
`rlength`. -/
def editorUpdateRow (row : erow) : erow :=
  let st := (row.chars.take row.length).foldl updateRowStep ([], 0)
  { row with render := st.1, render_length := st.2 }

/-- The function `cursorXToRenderX`: the loop `for (i = 0; i < cx; i++)` reads
`chars[0 .. cx-1]` and advances `rx` by one column, or to the next tab stop. -/
def cursorXToRenderX (row : erow) (cx : Int) : Int :=
  let rx : Nat := (row.chars.take cx.toNat).foldl
    (fun rx ch => (if ch = 9 then rx + ((TAB_LENGTH - 1) - rx % TAB_LENGTH) else rx) + 1) 0
  rx

/-- The struct `editorConfig` (the global `E`), without the status bar and the
saved terminal settings. -/
structure editorConfig where
  cursor_x : Int
  cursor_y : Int
  render_x : Int
  row_offset : Int
  screen_rows : Int
  col_offset : Int
  screen_cols : Int
  num_rows : Nat
  rows : List erow
deriving DecidableEq

/-- The state set up by `initEditor` for a window of the given size (as
`getWindowSize` reports it): no rows, cursor and offsets zero, two screen rows
kept for the status bar. -/
def initEditor (rows cols : Int) : editorConfig :=
  { cursor_x := 0, cursor_y := 0, render_x := 0, row_offset := 0,
    screen_rows := rows - 2, col_offset := 0, screen_cols := cols,
    num_rows := 0, rows := [] }

/-- The row `E.rows[i]`.  An index outside the array does not name a row of the
document; the empty row stands for what is found there. -/
def rowAt (rows : List erow) (i : Int) : erow :=
  if i < 0 then ⟨0, 0, [], []⟩ else rows.getD i.toNat ⟨0, 0, [], []⟩

/-- Store `row` in `E.rows[i]`; a store outside the array changes no row. -/
def setRowAt (rows : List erow) (i : Int) (row : erow) : List erow :=
  if i < 0 then rows else rows.set i.toNat row

/-- The index `len - 1` computed in `size_t` arithmetic, as in
`E.rows[r].chars[len - 1] = 0`: for `len = 0` it wraps to `SIZE_MAX`. -/
def terminatorIndex (len : Nat) : Nat := (len + SIZE_MAX) % (SIZE_MAX + 1)

/-- The function `editorAppendRow(s, len)`: the row array is resized to
`num_rows + 1` entries; the new entry gets `length = len`, a `chars` buffer
holding the first `len` bytes of `s` (the `memcpy`) with a zero byte stored at
index `len - 1`, and its rendering; `num_rows` is incremented.  The store at
`len - 1` is a `List.set`: when the index lies outside `0 .. len - 1` none of
the row's bytes change. -/
def editorAppendRow (E : editorConfig) (s : List Nat) (len : Nat) : editorConfig :=
  let r := E.num_rows
  let chars := (s.take len).set (terminatorIndex len) 0
  let row := editorUpdateRow { length := len, render_length := 0, chars := chars, render := [] }
  { E with rows := E.rows.take r ++ [row], num_rows := E.num_rows + 1 }

/-- Conversion of an `int` to `char`, as in `row->chars[at] = c`. -/
def intToChar (c : Int) : Nat := (c % 256).toNat

/-- Promotion of a `char` to `int`; `signedChar` tells whether the platform's
plain `char` is signed. -/
def charToInt (signedChar : Bool) (c : Nat) : Int :=
  if signedChar ∧ 128 ≤ c then (c : Int) - 256 else c

/-- The function `editorInsertCharAt(row, at, c)`: a column outside
`0 .. length` is replaced by `length`; the bytes from `at` on move one place
to the right (`memmove`), `length` is incremented, `c` is stored at `at`, and
the rendering is rebuilt. -/
def editorInsertCharAt (row : erow) (col : Int) (c : Int) : erow :=
  let col : Int := if col < 0 ∨ col > row.length then row.length else col
  let content := row.chars.take row.length
  let chars := content.take col.toNat ++ intToChar c :: content.drop col.toNat
  editorUpdateRow { row with length := row.length + 1, chars := chars }

/-! ## editor operations -/

/-- The function `editorInsertChar(c)`.  The string literal `""` passed to
`editorAppendRow` is the one-byte buffer `[0]`. -/
def editorInsertChar (signedChar : Bool) (E : editorConfig) (c : Nat) : editorConfig :=
  let E := if E.cursor_y = E.num_rows then editorAppendRow E [0] 0 else E
  let row := editorInsertCharAt (rowAt E.rows E.cursor_y) E.cursor_x (charToInt signedChar c)
  let E := { E with rows := setRowAt E.rows E.cursor_y row }
  { E with cursor_x := E.cursor_x + 1 }

/-! ## file input and output -/

/-- The function `editorRowsToString`: the pair of the buffer it returns and
the length it stores in `*buffer_length`.  The first loop adds up
`length + 1`; the second copies `chars[0 .. length-1]` of each row and a
newline byte through the moving pointer `p`. -/
def editorRowsToString (E : editorConfig) : List Nat × Nat :=
  let rows := E.rows.take E.num_rows
  let total_length := rows.foldl (fun total row => total + (row.length + 1)) 0
  let buffer := rows.foldl (fun p row => p ++ (row.chars.take row.length ++ [10])) []
  (buffer, total_length)

/-- The loop of `openEditor` that strips a line:
`while (line_len > 0 && (line[line_len-1] == 10 || line[line_len-1] == 13)) line_len--;`
started at `line_len`. -/
def stripLineLen (line : List Nat) : Nat → Nat
  | 0 => 0
  | n + 1 => if line.getD n 0 = 10 ∨ line.getD n 0 = 13 then stripLineLen line n else n + 1

/-- The body of the reading loop of `openEditor` for one line returned by
`getline`: `line` holds the `line_len` bytes of the line, and the buffer that
`getline` fills has a zero byte after them. -/
def openEditorLine (E : editorConfig) (line : List Nat) : editorConfig :=
  let line_len := stripLineLen line line.length
  editorAppendRow E (line ++ [0]) (line_len + 1)

/-- The function `openEditor`.  The file is given by the lines `getline`
returns, in order, or `none` when `fopen` fails, in which case the program
ends through `die` (result `none`). -/
def openEditor (E : editorConfig) (file : Option (List (List Nat))) : Option editorConfig :=
  match file with
  | none => none
  | some lines => some (lines.foldl openEditorLine E)

/-! ## output -/

/-- The function `editorScroll`. -/
def editorScroll (E : editorConfig) : editorConfig :=
  let E := { E with render_x := 0 }
  let E := if E.cursor_y < E.num_rows then
      { E with render_x := cursorXToRenderX (rowAt E.rows E.cursor_y) E.cursor_x }
    else E
  let E := if E.cursor_y < E.row_offset then { E with row_offset := E.cursor_y } else E
  let E := if E.cursor_y ≥ E.row_offset + E.screen_rows then
      { E with row_offset := E.cursor_y - E.screen_rows + 1 }
    else E
  let E := if E.render_x < E.col_offset then { E with col_offset := E.render_x } else E
  let E := if E.render_x ≥ E.col_offset + E.screen_cols then
      { E with col_offset := E.render_x + E.screen_cols + 1 }
    else E
  E

/-! ## terminal input -/

/-- The enum `editorKey`. -/
def BACK_SPACE : Int := 127
/-- The key code `ARROW_LEFT`. -/
def ARROW_LEFT : Int := 1000
/-- The key code `ARROW_RIGHT`. -/
def ARROW_RIGHT : Int := 1001
/-- The key code `ARROW_UP`. -/
def ARROW_UP : Int := 1002
/-- The key code `ARROW_DOWN`. -/
def ARROW_DOWN : Int := 1003
/-- The key code `DEL_KEY`. -/
def DEL_KEY : Int := 1004
/-- The key code `PAGE_UP`. -/
def PAGE_UP : Int := 1005
/-- The key code `PAGE_DOWN`. -/
def PAGE_DOWN : Int := 1006
/-- The key code `HOME_KEY`. -/
def HOME_KEY : Int := 1007
/-- The key code `END_KEY`. -/
def END_KEY : Int := 1008
/-- The byte 0x1b, returned for a bare escape. -/
def ESC : Int := 27

/-- The outcome of one call `read(STDIN_FILENO, &c, 1)`. -/
inductive ReadResult where
  /-- The call returned 1 and stored the byte. -/
  | byte (c : Nat)
  /-- The call returned 0 (the timer ran out), or -1 with `errno == EAGAIN`. -/
  | timeout
  /-- The call returned -1 with another `errno`. -/
  | error
deriving DecidableEq

/-- What a call of `editorReadKey` comes to. -/
inductive KeyResult where
  /-- It returned the key `k`; `rest` are the reads not yet made. -/
  | key (k : Int) (rest : List ReadResult)
  /-- It ended the program through `die`. -/
  | died
  /-- It never returned: every read of its first loop timed out. -/
  | blocked
deriving DecidableEq

/-- One call `read(STDIN_FILENO, &seq[i], 1) != 1` inside an escape sequence:
the byte when the call returns 1, and the reads left.  The input is the list
of the outcomes of the reads to come; after its end every read times out. -/
def readSeqByte : List ReadResult → Option Nat × List ReadResult
  | [] => (none, [])
  | ReadResult.byte c :: rest => (some c, rest)
  | _ :: rest => (none, rest)

/-- The part of `editorReadKey` run after the byte 0x1b has been read. -/
def readEscapeSequence (input : List ReadResult) : Int × List ReadResult :=
  match readSeqByte input with
  | (none, rest) => (ESC, rest)
  | (some seq0, rest) =>
    match readSeqByte rest with
    | (none, rest) => (ESC, rest)
    | (some seq1, rest) =>
      if seq0 = 91 then
        if 48 ≤ seq1 ∧ seq1 ≤ 57 then
          match readSeqByte rest with
          | (none, rest) => (ESC, rest)
          | (some seq2, rest) =>
            if seq2 = 126 then
              if seq1 = 49 then (HOME_KEY, rest)
              else if seq1 = 51 then (DEL_KEY, rest)
              else if seq1 = 52 then (END_KEY, rest)
              else if seq1 = 53 then (PAGE_UP, rest)
              else if seq1 = 54 then (PAGE_DOWN, rest)
              else if seq1 = 55 then (HOME_KEY, rest)
              else if seq1 = 56 then (END_KEY, rest)
              else (ESC, rest)
            else (ESC, rest)
        else
          if seq1 = 65 then (ARROW_UP, rest)
          else if seq1 = 66 then (ARROW_DOWN, rest)
          else if seq1 = 67 then (ARROW_RIGHT, rest)
          else if seq1 = 68 then (ARROW_LEFT, rest)
          else if seq1 = 72 then (HOME_KEY, rest)
          else if seq1 = 70 then (END_KEY, rest)
          else (ESC, rest)
      else if seq0 = 79 then
        if seq1 = 72 then (HOME_KEY, rest)
        else if seq1 = 70 then (END_KEY, rest)
        else (ESC, rest)
      else (ESC, rest)

/-- The function `editorReadKey` on the outcomes of the reads to come.  The
first loop repeats the read until it returns 1 and ends the program on an
error other than `EAGAIN`. -/
def editorReadKey (signedChar : Bool) : List ReadResult → KeyResult
  | [] => KeyResult.blocked
  | ReadResult.timeout :: rest => editorReadKey signedChar rest
  | ReadResult.error :: _ => KeyResult.died
  | ReadResult.byte c :: rest =>
    if c = 27 then
      let r := readEscapeSequence rest
      KeyResult.key r.1 r.2
    else KeyResult.key (charToInt signedChar c) rest

/-- The byte sequences after 0x1b for which `editorReadKey` has a `case`
returning a named key: `[ d ~` for the digits 1, 3, 4, 5, 6, 7, 8, `[` with one
of the letters A, B, C, D, H, F, and `O` with H or F. -/
def recognizedSequences : List (List Nat) :=
  [[91, 49, 126], [91, 51, 126], [91, 52, 126], [91, 53, 126], [91, 54, 126], [91, 55, 126],
    [91, 56, 126], [91, 65], [91, 66], [91, 67], [91, 68], [91, 72], [91, 70], [79, 72], [79, 70]]

/-! ## cursor movement and key dispatch -/

/-- The macro `CTRL_KEY(k)`, `k & 0x1f`, for a character code `k`. -/
def CTRL_KEY (k : Nat) : Int := ((k % 32 : Nat) : Int)

/-- The expression `(E.cursor_y >= E.num_rows) ? NULL : &E.rows[E.cursor_y]`
of `editorMoveCursor`. -/
def cursorRow (E : editorConfig) : Option erow :=
  if E.cursor_y ≥ E.num_rows then none else some (rowAt E.rows E.cursor_y)

/-- The expression `row ? row->length : 0` of `editorMoveCursor`, for the row
the cursor is on. -/
def cursorRowLength (E : editorConfig) : Int :=
  match cursorRow E with
  | some r => r.length
  | none => 0

/-- The `switch (key)` of `editorMoveCursor`, with `row` the row the cursor is
on before the move. -/
def moveCursorSwitch (E : editorConfig) (key : Int) : editorConfig :=
  let row := cursorRow E
  if key = ARROW_LEFT then
    if E.cursor_x ≠ 0 then { E with cursor_x := E.cursor_x - 1 }
    else if E.cursor_y > 0 then
      { E with cursor_y := E.cursor_y - 1,
               cursor_x := (rowAt E.rows (E.cursor_y - 1)).length }
    else E
  else if key = ARROW_RIGHT then
    match row with
    | some r =>
      if E.cursor_x < r.length then { E with cursor_x := E.cursor_x + 1 }
      else if E.cursor_x = r.length then { E with cursor_x := 0, cursor_y := E.cursor_y + 1 }
      else E
    | none => E
  else if key = ARROW_UP then
    if E.cursor_y ≠ 0 then { E with cursor_y := E.cursor_y - 1 } else E
  else if key = ARROW_DOWN then
    if E.cursor_y < E.num_rows then { E with cursor_y := E.cursor_y + 1 } else E
  else E

/-- The function `editorMoveCursor(key)`: the `switch` on the four arrow
keys, then the clamp of `cursor_x` to the length of the row the cursor is
now on. -/
def editorMoveCursor (E : editorConfig) (key : Int) : editorConfig :=
  let E := moveCursorSwitch E key
  let row_len : Int := cursorRowLength E
  if E.cursor_x > row_len then { E with cursor_x := row_len } else E

/-- The loop `while (times--) editorMoveCursor(key);` for a count
`times ≥ 0`. -/
def moveCursorTimes : Nat → editorConfig → Int → editorConfig
  | 0, E, _ => E
  | times + 1, E, key => moveCursorTimes times (editorMoveCursor E key) key

/-- The `switch (c)` of `editorProcessKeypresses` on the key `c`; `none` is
the call `exit(0)`.  `saveEditor` writes the file and the status message and
changes no field of the state kept here.  The page keys run the movement loop
`screen_rows` times.  In the `default` case `c` is converted to the `char`
parameter of `editorInsertChar`. -/
def processKey (signedChar : Bool) (E : editorConfig) (c : Int) : Option editorConfig :=
  if c = 13 then some E
  else if c = CTRL_KEY 113 then none
  else if c = CTRL_KEY 115 then some E
  else if c = PAGE_UP ∨ c = PAGE_DOWN then
    let E :=
      if c = PAGE_UP then { E with cursor_y := E.row_offset }
      else
        let E := { E with cursor_y := E.row_offset + E.screen_rows + 1 }
        if E.cursor_y > E.num_rows then { E with cursor_y := E.num_rows } else E
    some (moveCursorTimes E.screen_rows.toNat E (if c = PAGE_UP then ARROW_UP else ARROW_DOWN))
  else if c = HOME_KEY then some { E with cursor_x := 0 }
  else if c = END_KEY then
    some (if E.cursor_y < E.num_rows then
      { E with cursor_x := (rowAt E.rows E.cursor_y).length } else E)
  else if c = BACK_SPACE ∨ c = CTRL_KEY 104 ∨ c = DEL_KEY then some E
  else if c = ARROW_UP ∨ c = ARROW_LEFT ∨ c = ARROW_DOWN ∨ c = ARROW_RIGHT then
    some (editorMoveCursor E c)
  else if c = CTRL_KEY 108 ∨ c = ESC then some E
  else some (editorInsertChar signedChar E (intToChar c))

/-- What a call of `editorProcessKeypresses` comes to. -/
inductive KeypressResult where
  /-- It returned with the state `E`; `rest` are the reads not yet made. -/
  | done (E : editorConfig) (rest : List ReadResult)
  /-- The program ended through `exit(0)`. -/
  | quit
  /-- The program ended through `die`. -/
  | died
  /-- The read of the key never returned. -/
  | blocked
deriving DecidableEq

/-- The function `editorProcessKeypresses`: one key is read and dispatched. -/
def editorProcessKeypresses (signedChar : Bool) (E : editorConfig) (input : List ReadResult) :
    KeypressResult :=
  match editorReadKey signedChar input with
  | KeyResult.key c rest =>
    match processKey signedChar E c with
    | some E => KeypressResult.done E rest
    | none => KeypressResult.quit
  | KeyResult.died => KeypressResult.died
  | KeyResult.blocked => KeypressResult.blocked

/-! ## drawing the rows -/

/-- The function `abAppend(ab, s, len)`: the first `len` bytes of `s` are
added to the buffer (the reallocation is taken to succeed). -/
def abAppend (ab s : List Nat) (len : Int) : List Nat := ab ++ s.take len.toNat

/-- The bytes `snprintf` writes to `welcome`: `"lb editor -- v0.0.1"`. -/
def welcome : List Nat :=
  [108, 98, 32, 101, 100, 105, 116, 111, 114, 32, 45, 45, 32, 118, 48, 46, 48, 46, 49]

/-- The body of the `for` loop of `editorDrawRows` for the screen row `y`. -/
def editorDrawRow (E : editorConfig) (ab : List Nat) (y : Int) : List Nat :=
  let file_row := y + E.row_offset
  let ab :=
    if file_row ≥ E.num_rows then
      if E.num_rows = 0 ∧ y = E.screen_rows / 3 then
        let welcomelen : Int := welcome.length
        let welcomelen := if welcomelen > E.screen_cols then E.screen_cols else welcomelen
        let padding := (E.screen_cols - welcomelen) / 2
        let ab := if padding ≠ 0 then abAppend ab [126] 1 else ab
        let padding := if padding ≠ 0 then padding - 1 else padding
        let ab := (List.range padding.toNat).foldl (fun ab _ => abAppend ab [32] 1) ab
        abAppend ab welcome welcomelen
      else abAppend ab [126] 1
    else
      let row := rowAt E.rows file_row
      let len : Int := (row.render_length : Int) - E.col_offset
      let len := if len < 0 then 0 else len
      let len := if len > E.screen_cols then E.screen_cols else len
      abAppend ab (row.render.drop E.col_offset.toNat) len
  let ab := abAppend ab [27, 91, 75] 3
  abAppend ab [13, 10] 2

/-- The function `editorDrawRows(ab)`: the buffer after the loop over
`y = 0 .. screen_rows - 1`. -/
def editorDrawRows (E : editorConfig) (ab : List Nat) : List Nat :=
  (List.range E.screen_rows.toNat).foldl (fun ab (y : Nat) => editorDrawRow E ab (y : Int)) ab

/-! ## indices written by `editorAppendRow` -/

/-- The number of bytes `editorAppendRow(s, len)` allocates for `chars`:
`malloc(len + 1)`. -/
def appendRowAllocated (len : Nat) : Nat := len + 1

/-- The indices of `chars` that `editorAppendRow(s, len)` writes, in order:
`0 .. len - 1` by `memcpy`, then the terminator index `len - 1`. -/
def appendRowWrites (len : Nat) : List Nat := List.range len ++ [terminatorIndex len]

/-! ## Well-formed rows and documents -/

/-- A row whose `chars` buffer holds exactly `length` bytes. -/
def rowOk (row : erow) : Prop := row.chars.length = row.length

instance (row : erow) : Decidable (rowOk row) := by unfold rowOk; infer_instance

/-- A document whose row array holds `num_rows` rows, each with `length` bytes
of content. -/
def docOk (E : editorConfig) : Prop := E.rows.length = E.num_rows ∧ ∀ row ∈ E.rows, rowOk row

instance (E : editorConfig) : Decidable (docOk E) := by unfold docOk; infer_instance

/-- A cursor inside the document: `0 ≤ cursor_y ≤ num_rows` and
`0 ≤ cursor_x ≤` the length of the cursor row, taken as 0 at
`cursor_y = num_rows`. -/
def cursorOk (E : editorConfig) : Prop :=
  0 ≤ E.cursor_y ∧ E.cursor_y ≤ E.num_rows ∧ 0 ≤ E.cursor_x ∧
    E.cursor_x ≤ (if E.cursor_y = E.num_rows then (0 : Int)
      else ((rowAt E.rows E.cursor_y).length : Int))

instance (E : editorConfig) : Decidable (cursorOk E) := by unfold cursorOk; infer_instance

/-- A cursor on a row index of the document, `0 ≤ cursor_y ≤ num_rows`, with
`0 ≤ cursor_x`: the state between the assignment of `cursor_y` and the clamp
of `cursor_x`. -/
def cursorRowOk (E : editorConfig) : Prop :=
  0 ≤ E.cursor_y ∧ E.cursor_y ≤ E.num_rows ∧ 0 ≤ E.cursor_x

/-- Two states with the same document and the same window. -/
def sameView (E E' : editorConfig) : Prop :=
  E'.render_x = E.render_x ∧ E'.row_offset = E.row_offset ∧ E'.screen_rows = E.screen_rows ∧
    E'.col_offset = E.col_offset ∧ E'.screen_cols = E.screen_cols ∧
    E'.num_rows = E.num_rows ∧ E'.rows = E.rows

/-- A row whose render is the one `editorUpdateRow` computes from its content,
with `render_length` the number of bytes of the render. -/
def renderOk (row : erow) : Prop :=
  editorUpdateRow row = row ∧ row.render_length = row.render.length

instance (row : erow) : Decidable (renderOk row) := by unfold renderOk; infer_instance

/-- The states reached from an empty document by calls of `editorAppendRow`,
`editorInsertChar` and `editorInsertCharAt` (on any row), with any movement of
the cursor and of the window in between. -/
inductive Reachable : editorConfig → Prop where
  | init (cx cy rx ro sr co scs : Int) : Reachable ⟨cx, cy, rx, ro, sr, co, scs, 0, []⟩
  | appendRow (E : editorConfig) (s : List Nat) (len : Nat) :
      Reachable E → Reachable (editorAppendRow E s len)
  | insertChar (signedChar : Bool) (E : editorConfig) (c : Nat) :
      Reachable E → Reachable (editorInsertChar signedChar E c)
  | insertCharAt (E : editorConfig) (i col c : Int) :
      Reachable E →
      Reachable { E with rows := setRowAt E.rows i (editorInsertCharAt (rowAt E.rows i) col c) }
  | view (E : editorConfig) (cx cy rx ro sr co scs : Int) :
      Reachable E → Reachable ⟨cx, cy, rx, ro, sr, co, scs, E.num_rows, E.rows⟩

/-! ## Lemmas on the rendering of a row -/

theorem padSpaces_eq (fuel : Nat) : ∀ (r : List Nat) (n : Nat),
    (TAB_LENGTH - n % TAB_LENGTH) % TAB_LENGTH ≤ fuel →
    padSpaces fuel (r, n) =
      (r ++ List.replicate ((TAB_LENGTH - n % TAB_LENGTH) % TAB_LENGTH) 32,
        n + (TAB_LENGTH - n % TAB_LENGTH) % TAB_LENGTH) := by
  induction fuel with
  | zero =>
    intro r n h
    have h0 : (TAB_LENGTH - n % TAB_LENGTH) % TAB_LENGTH = 0 := Nat.le_zero.mp h
    simp [padSpaces, h0]
  | succ fuel ih =>
    intro r n h
    unfold padSpaces
    by_cases hn : n % TAB_LENGTH = 0
    · have h0 : (TAB_LENGTH - n % TAB_LENGTH) % TAB_LENGTH = 0 := by
        unfold TAB_LENGTH at *; omega
      simp [hn, h0]
    · have hstep : (TAB_LENGTH - n % TAB_LENGTH) % TAB_LENGTH
          = (TAB_LENGTH - (n + 1) % TAB_LENGTH) % TAB_LENGTH + 1 := by
        unfold TAB_LENGTH at *; omega
      have hfuel : (TAB_LENGTH - (n + 1) % TAB_LENGTH) % TAB_LENGTH ≤ fuel := by omega
      simp only [bne_iff_ne, ne_eq, hn, not_false_eq_true, if_true]
      rw [ih (r ++ [32]) (n + 1) hfuel, hstep]
      simp [List.replicate_succ, Nat.add_assoc, Nat.add_comm 1]

/-- The inner loop of `editorUpdateRow` leaves through its condition: after
at most `TAB_LENGTH` iterations the counter is a multiple of `TAB_LENGTH`. -/
theorem padSpaces_exit (r : List Nat) (n : Nat) :
    (padSpaces TAB_LENGTH (r, n)).2 % TAB_LENGTH = 0 := by
  rw [padSpaces_eq TAB_LENGTH r n (by unfold TAB_LENGTH; omega)]
  show (n + (TAB_LENGTH - n % TAB_LENGTH) % TAB_LENGTH) % TAB_LENGTH = 0
  unfold TAB_LENGTH; omega

theorem updateRowStep_tab (r : List Nat) (n : Nat) :
    updateRowStep (r, n) 9 =
      (r ++ List.replicate (TAB_LENGTH - n % TAB_LENGTH) 32, n + (TAB_LENGTH - n % TAB_LENGTH)) := by
  have hk : (TAB_LENGTH - (n + 1) % TAB_LENGTH) % TAB_LENGTH + 1 = TAB_LENGTH - n % TAB_LENGTH := by
    unfold TAB_LENGTH; omega
  simp only [updateRowStep, if_true]
  rw [padSpaces_eq TAB_LENGTH (r ++ [32]) (n + 1) (by unfold TAB_LENGTH; omega), ← hk]
  simp [List.replicate_succ, Nat.add_assoc, Nat.add_comm 1]

theorem updateRowStep_other (r : List Nat) (n ch : Nat) (h : ch ≠ 9) :
    updateRowStep (r, n) ch = (r ++ [ch], n + 1) := by
  simp [updateRowStep, h]

/-- The state of the copying loop of `editorUpdateRow` after the bytes `l`. -/
theorem editorUpdateRow_eq (len rl : Nat) (l rnd : List Nat) :
    editorUpdateRow ⟨len, rl, l, rnd⟩ =
      ⟨len, ((l.take len).foldl updateRowStep ([], 0)).2, l,
        ((l.take len).foldl updateRowStep ([], 0)).1⟩ := rfl

/-- The counter `rlength` is the number of bytes written to `render`. -/
theorem updateRowLoop_length (l : List Nat) :
    (l.foldl updateRowStep ([], 0)).2 = (l.foldl updateRowStep ([], 0)).1.length := by
  induction l using List.reverseRecOn with
  | nil => rfl
  | append_singleton l ch ih =>
    rw [List.foldl_append, List.foldl_cons, List.foldl_nil]
    generalize l.foldl updateRowStep ([], 0) = st at ih ⊢
    obtain ⟨r, n⟩ := st
    simp only at ih
    subst ih
    by_cases h : ch = 9
    · subst h; rw [updateRowStep_tab]; simp
    · rw [updateRowStep_other _ _ _ h]; simp

/-- The number of bytes rendered, counted against the spaces and tabs of the
content: every byte adds one, and a tab adds the spaces beyond its first. -/
theorem updateRowLoop_count (l : List Nat) :
    (l.foldl updateRowStep ([], 0)).2 + l.count 32 + l.count 9 =
      l.length + (l.foldl updateRowStep ([], 0)).1.count 32 := by
  induction l using List.reverseRecOn with
  | nil => rfl
  | append_singleton l ch ih =>
    rw [List.foldl_append, List.foldl_cons, List.foldl_nil]
    generalize l.foldl updateRowStep ([], 0) = st at ih ⊢
    obtain ⟨r, n⟩ := st
    simp only at ih
    by_cases h : ch = 9
    · subst h
      rw [updateRowStep_tab]
      simp [List.count_append, List.count_replicate]
      omega
    · rw [updateRowStep_other _ _ _ h]
      by_cases h32 : ch = 32
      · subst h32; simp [List.count_append]; omega
      · have h1 : ¬ (32 = ch) := fun e => h32 e.symm
        have h2 : ¬ (9 = ch) := fun e => h e.symm
        simp [List.count_append, List.count_cons, h32, h, h1, h2]; omega

/-! ## Lemmas on `editorAppendRow` -/

theorem terminatorIndex_pos (len : Nat) (h1 : 1 ≤ len) (h2 : len ≤ SIZE_MAX) :
    terminatorIndex len = len - 1 := by
  unfold terminatorIndex SIZE_MAX at *
  omega

theorem editorAppendRow_eq (E : editorConfig) (s : List Nat) (len : Nat) :
    editorAppendRow E s len =
      { E with
        rows := E.rows.take E.num_rows ++
          [editorUpdateRow ⟨len, 0, (s.take len).set (terminatorIndex len) 0, []⟩],
        num_rows := E.num_rows + 1 } := rfl

/-- The bytes of the row made by `editorAppendRow(s, len)` for `len ≥ 1`: the
first `len - 1` bytes of `s`, then a zero byte. -/
theorem editorAppendRow_chars (s : List Nat) (n : Nat) (h1 : n + 1 ≤ s.length)
    (h2 : n + 1 ≤ SIZE_MAX) :
    (s.take (n + 1)).set (terminatorIndex (n + 1)) 0 = s.take n ++ [0] := by
  rw [terminatorIndex_pos (n + 1) (by omega) h2, Nat.add_sub_cancel,
    List.set_eq_take_append_cons_drop]
  have hlen : (s.take (n + 1)).length = n + 1 := by rw [List.length_take]; omega
  rw [if_pos (by rw [hlen]; omega), List.take_take, Nat.min_eq_left (Nat.le_succ n),
    List.drop_of_length_le (by rw [hlen])]

theorem stripLineLen_le (line : List Nat) : ∀ n, stripLineLen line n ≤ n := by
  intro n
  induction n with
  | zero => simp [stripLineLen]
  | succ n ih =>
    unfold stripLineLen
    split
    · omega
    · exact Nat.le_refl _

/-- What `openEditor` appends for a line: a row of `line_len + 1` bytes, the
stripped line followed by a zero byte, where `line_len` is the stripped
length. -/
theorem openEditorLine_eq (E : editorConfig) (line : List Nat) (h : line.length < SIZE_MAX) :
    openEditorLine E line =
      { E with
        rows := E.rows.take E.num_rows ++
          [editorUpdateRow ⟨stripLineLen line line.length + 1, 0,
            line.take (stripLineLen line line.length) ++ [0], []⟩],
        num_rows := E.num_rows + 1 } := by
  have hle := stripLineLen_le line line.length
  unfold openEditorLine
  simp only []
  rw [editorAppendRow_eq, editorAppendRow_chars _ _ (by simp; omega) (by omega),
    List.take_append_of_le_length hle]

/-! ## Lemmas on `editorInsertCharAt` and `editorInsertChar` -/

theorem intToChar_charToInt (signedChar : Bool) (c : Nat) (h : c < 256) :
    intToChar (charToInt signedChar c) = c := by
  unfold intToChar charToInt
  split <;> omega

/-- The effect of `editorInsertCharAt` on a row with `length` bytes of
content, for any `int` value `c`. -/
theorem editorInsertCharAt_spec (row : erow) (col c : Int) (hrow : rowOk row) :
    (if 0 ≤ col ∧ col ≤ row.length then col.toNat else row.length) ≤ row.length ∧
    (editorInsertCharAt row col c).chars =
      row.chars.take (if 0 ≤ col ∧ col ≤ row.length then col.toNat else row.length) ++
        intToChar c ::
          row.chars.drop (if 0 ≤ col ∧ col ≤ row.length then col.toNat else row.length) ∧
    (editorInsertCharAt row col c).length = row.length + 1 ∧
    rowOk (editorInsertCharAt row col c) ∧
    (editorInsertCharAt row col c).chars.eraseIdx
      (if 0 ≤ col ∧ col ≤ row.length then col.toNat else row.length) = row.chars := by
  generalize hkdef : (if 0 ≤ col ∧ col ≤ (row.length : Int) then col.toNat else row.length) = k
  unfold rowOk at hrow
  have hk : k ≤ row.length := by
    rw [← hkdef]
    split <;> omega
  have hcol : (if col < 0 ∨ col > (row.length : Int) then (row.length : Int) else col).toNat = k := by
    rw [← hkdef]
    by_cases h : 0 ≤ col ∧ col ≤ (row.length : Int)
    · rw [if_pos h, if_neg (by omega)]
    · rw [if_neg h, if_pos (by omega)]; simp
  have hchars : (editorInsertCharAt row col c).chars
      = row.chars.take k ++ intToChar c :: row.chars.drop k := by
    unfold editorInsertCharAt
    simp only [editorUpdateRow, hcol]
    rw [List.take_of_length_le (Nat.le_of_eq hrow)]
  have hlen : (editorInsertCharAt row col c).length = row.length + 1 := rfl
  refine ⟨hk, hchars, hlen, ?_, ?_⟩
  · unfold rowOk
    rw [hchars, hlen]
    simp
    omega
  · rw [hchars, List.eraseIdx_append_of_length_le (by simp)]
    have : k - (List.take k row.chars).length = 0 := by simp; omega
    rw [this, List.eraseIdx_cons_zero, List.take_append_drop]

theorem editorUpdateRow_idem (row : erow) :
    editorUpdateRow (editorUpdateRow row) = editorUpdateRow row := rfl

theorem getElem_take_cons_drop {α : Type} (l : List α) (n i : Nat) (a : α)
    (hn : n ≤ l.length) (h : i ≠ n) : (l.take n ++ a :: l.drop (n + 1))[i]? = l[i]? := by
  rcases Nat.lt_or_gt_of_ne h with h1 | h1
  · rw [List.getElem?_append_left (by simp; omega), List.getElem?_take_of_lt h1]
  · rw [List.getElem?_append_right (by simp; omega)]
    have : i - (List.take n l).length = (i - n - 1) + 1 := by simp; omega
    rw [this, List.getElem?_cons_succ, List.getElem?_drop]
    congr 1
    omega

/-- The rows left by `editorInsertChar` on a well-formed document with the
cursor row `y ≤ num_rows`: the row `y` is replaced by, or when `y = num_rows`
the document is extended with, the result of `editorInsertCharAt`. -/
theorem editorInsertChar_eq (signedChar : Bool) (cx rx ro sr co scs : Int) (y : Nat)
    (rows : List erow) (c : Nat) (hy : y ≤ rows.length) :
    editorInsertChar signedChar ⟨cx, y, rx, ro, sr, co, scs, rows.length, rows⟩ c =
      ⟨cx + 1, y, rx, ro, sr, co, scs, if y = rows.length then rows.length + 1 else rows.length,
        rows.take y ++
          editorInsertCharAt (if y = rows.length then ⟨0, 0, [], []⟩ else rowAt rows y) cx
            (charToInt signedChar c) :: rows.drop (y + 1)⟩ := by
  by_cases h : y = rows.length
  · subst h
    have hrow : rowAt (rows ++ [editorUpdateRow ⟨0, 0, [], []⟩]) (rows.length : Int)
        = ⟨0, 0, [], []⟩ := by
      unfold rowAt
      rw [if_neg (by omega), Int.toNat_natCast, List.getD_append_right _ _ _ _ (Nat.le_refl _)]
      simp
      rfl
    have hnn : ¬ ((rows.length : Int) < 0) := by omega
    simp only [editorInsertChar, editorAppendRow_eq, if_true, List.take_length, hrow]
    simp [setRowAt, hnn, hrow]
  · have hlt : y < rows.length := by omega
    have hne : ¬ ((y : Int) = (rows.length : Int)) := by omega
    have hnn : ¬ ((y : Int) < 0) := by omega
    simp only [editorInsertChar, if_neg hne, if_neg h]
    simp [setRowAt, List.set_eq_take_append_cons_drop, hlt, hnn]

theorem rowAt_take_cons_drop (rows : List erow) (y : Nat) (row : erow) (hy : y ≤ rows.length) :
    rowAt (rows.take y ++ row :: rows.drop (y + 1)) (y : Int) = row := by
  unfold rowAt
  rw [if_neg (by omega), Int.toNat_natCast,
    List.getD_append_right _ _ _ _ (by simp)]
  have : y - (List.take y rows).length = 0 := by simp; omega
  rw [this]
  rfl

theorem rowAt_length (rows : List erow) : rowAt rows (rows.length : Int) = ⟨0, 0, [], []⟩ := by
  unfold rowAt
  rw [if_neg (by omega), Int.toNat_natCast, List.getD_eq_default _ _ (Nat.le_refl _)]

theorem rowAt_mem (rows : List erow) (y : Nat) (hy : y < rows.length) :
    rowAt rows (y : Int) ∈ rows := by
  unfold rowAt
  rw [if_neg (by omega), Int.toNat_natCast, List.getD_eq_getElem _ _ hy]
  exact List.getElem_mem hy

/-! ## Lemmas on `editorRowsToString` -/

theorem foldl_append_eq_flatten {α β : Type} (f : α → List β) (l : List α) :
    ∀ acc : List β, l.foldl (fun p a => p ++ f a) acc = acc ++ (l.map f).flatten := by
  induction l with
  | nil => intro acc; simp
  | cons a l ih => intro acc; simp [ih]

theorem foldl_add_eq_sum {α : Type} (g : α → Nat) (l : List α) :
    ∀ acc : Nat, l.foldl (fun t a => t + g a) acc = acc + (l.map g).sum := by
  induction l with
  | nil => intro acc; simp
  | cons a l ih => intro acc; simp [ih, Nat.add_assoc]

/-- The buffer and the length computed by `editorRowsToString`, for any state. -/
theorem editorRowsToString_eq (E : editorConfig) :
    editorRowsToString E =
      (((E.rows.take E.num_rows).map (fun row => row.chars.take row.length ++ [10])).flatten,
        ((E.rows.take E.num_rows).map (fun row => row.length + 1)).sum) := by
  unfold editorRowsToString
  simp only [foldl_append_eq_flatten, foldl_add_eq_sum, List.nil_append, Nat.zero_add]

/-! ## Lemmas on `editorScroll` -/

/-- The three fields `editorScroll` assigns, named. -/
theorem editorScroll_eq (E : editorConfig) :
    editorScroll E =
      { E with
        render_x := if E.cursor_y < E.num_rows then
            cursorXToRenderX (rowAt E.rows E.cursor_y) E.cursor_x else 0,
        row_offset :=
          if E.cursor_y ≥ (if E.cursor_y < E.row_offset then E.cursor_y else E.row_offset)
              + E.screen_rows
          then E.cursor_y - E.screen_rows + 1
          else (if E.cursor_y < E.row_offset then E.cursor_y else E.row_offset),
        col_offset :=
          if (if E.cursor_y < E.num_rows then
                cursorXToRenderX (rowAt E.rows E.cursor_y) E.cursor_x else 0) ≥
              (if (if E.cursor_y < E.num_rows then
                    cursorXToRenderX (rowAt E.rows E.cursor_y) E.cursor_x else 0) < E.col_offset
                then (if E.cursor_y < E.num_rows then
                    cursorXToRenderX (rowAt E.rows E.cursor_y) E.cursor_x else 0)
                else E.col_offset) + E.screen_cols
          then (if E.cursor_y < E.num_rows then
              cursorXToRenderX (rowAt E.rows E.cursor_y) E.cursor_x else 0) + E.screen_cols + 1
          else (if (if E.cursor_y < E.num_rows then
                    cursorXToRenderX (rowAt E.rows E.cursor_y) E.cursor_x else 0) < E.col_offset
                then (if E.cursor_y < E.num_rows then
                    cursorXToRenderX (rowAt E.rows E.cursor_y) E.cursor_x else 0)
                else E.col_offset) } := by
  unfold editorScroll
  simp only []
  split_ifs <;> rfl

/-- The horizontal part of `editorScroll` when the render column of the cursor
is at or past the right edge of the window: the new `col_offset` is
`render_x + screen_cols + 1`, which lies to the right of the cursor. -/
theorem editorScroll_past_right_edge (E : editorConfig) (hcols : 1 ≤ E.screen_cols)
    (hedge : (editorScroll E).render_x ≥ E.col_offset + E.screen_cols) :
    (editorScroll E).col_offset = (editorScroll E).render_x + E.screen_cols + 1 ∧
    (editorScroll E).render_x < (editorScroll E).col_offset := by
  rw [editorScroll_eq] at hedge ⊢
  obtain ⟨cx, cy, rx, ro, sr, co, scs, n, rows⟩ := E
  simp only at hcols hedge ⊢
  generalize (if cy < (n : Int) then cursorXToRenderX (rowAt rows cy) cx else 0) = r at hedge ⊢
  constructor <;> split_ifs <;> omega

/-! ## Lemmas on `cursorXToRenderX` -/

/-- The counter of the copying loop of `editorUpdateRow` moves as the column
`rx` of `cursorXToRenderX` does. -/
theorem updateRowLoop_counter (l : List Nat) : ∀ (r : List Nat) (n : Nat),
    (l.foldl updateRowStep (r, n)).2 =
      l.foldl (fun rx ch =>
        (if ch = 9 then rx + ((TAB_LENGTH - 1) - rx % TAB_LENGTH) else rx) + 1) n := by
  induction l with
  | nil => intro r n; rfl
  | cons ch l ih =>
    intro r n
    rw [List.foldl_cons, List.foldl_cons]
    by_cases h : ch = 9
    · subst h
      rw [updateRowStep_tab, ih, if_pos rfl]
      congr 1
      unfold TAB_LENGTH
      omega
    · rw [updateRowStep_other _ _ _ h, ih, if_neg h]

theorem renderColumn_le (l : List Nat) : ∀ n : Nat,
    n ≤ l.foldl (fun rx ch =>
        (if ch = 9 then rx + ((TAB_LENGTH - 1) - rx % TAB_LENGTH) else rx) + 1) n := by
  induction l with
  | nil => intro n; exact Nat.le_refl n
  | cons ch l ih =>
    intro n
    rw [List.foldl_cons]
    refine Nat.le_trans ?_ (ih _)
    split <;> omega

theorem cursorXToRenderX_eq (row : erow) (cx : Int) :
    cursorXToRenderX row cx =
      (((row.chars.take cx.toNat).foldl (fun rx ch =>
        (if ch = 9 then rx + ((TAB_LENGTH - 1) - rx % TAB_LENGTH) else rx) + 1) 0 : Nat) : Int) :=
  rfl

/-- The render column grows with the buffer column. -/
theorem cursorXToRenderX_mono (row : erow) (c1 c2 : Int) (h : c1 ≤ c2) :
    cursorXToRenderX row c1 ≤ cursorXToRenderX row c2 := by
  have hn : c1.toNat ≤ c2.toNat := Int.toNat_le_toNat h
  have hsplit : row.chars.take c2.toNat
      = row.chars.take c1.toNat ++ (row.chars.take c2.toNat).drop c1.toNat := by
    conv_lhs => rw [← List.take_append_drop c1.toNat (row.chars.take c2.toNat)]
    rw [List.take_take, Nat.min_eq_left hn]
  rw [cursorXToRenderX_eq, cursorXToRenderX_eq, hsplit, List.foldl_append]
  exact Int.ofNat_le.mpr (renderColumn_le _ _)

/-- The render column of a buffer column is the render length of the bytes
before it. -/
theorem cursorXToRenderX_firstBytes (row : erow) (cx : Int) :
    cursorXToRenderX row cx =
      (editorUpdateRow { row with length := cx.toNat,
                                  chars := row.chars.take cx.toNat }).render_length := by
  rw [cursorXToRenderX_eq]
  show _ = ((((row.chars.take cx.toNat).take cx.toNat).foldl updateRowStep ([], 0)).2 : Int)
  rw [List.take_take, Nat.min_self, updateRowLoop_counter]

theorem cursorXToRenderX_length (row : erow) :
    cursorXToRenderX row row.length = (editorUpdateRow row).render_length := by
  rw [cursorXToRenderX_eq, Int.toNat_natCast]
  show _ = (((row.chars.take row.length).foldl updateRowStep ([], 0)).2 : Int)
  rw [updateRowLoop_counter]

/-! ## Lemmas on `editorMoveCursor` -/

theorem cursorRowLength_eq (E : editorConfig) :
    cursorRowLength E =
      if E.cursor_y ≥ (E.num_rows : Int) then 0 else ((rowAt E.rows E.cursor_y).length : Int) := by
  unfold cursorRowLength cursorRow
  split_ifs <;> rfl

theorem sameView_refl (E : editorConfig) : sameView E E :=
  ⟨rfl, rfl, rfl, rfl, rfl, rfl, rfl⟩

theorem sameView_trans {E E' E'' : editorConfig} (h : sameView E E') (h' : sameView E' E'') :
    sameView E E'' := by
  obtain ⟨h1, h2, h3, h4, h5, h6, h7⟩ := h
  obtain ⟨k1, k2, k3, k4, k5, k6, k7⟩ := h'
  exact ⟨k1.trans h1, k2.trans h2, k3.trans h3, k4.trans h4, k5.trans h5, k6.trans h6,
    k7.trans h7⟩

theorem cursorOk_cursorRowOk {E : editorConfig} (h : cursorOk E) : cursorRowOk E :=
  ⟨h.1, h.2.1, h.2.2.1⟩

/-- The clamp at the end of `editorMoveCursor` makes the cursor valid. -/
theorem editorMoveCursor_clamp (E : editorConfig) (key : Int)
    (h : cursorRowOk (moveCursorSwitch E key)) :
    cursorOk (editorMoveCursor E key) ∧
    sameView (moveCursorSwitch E key) (editorMoveCursor E key) ∧
    (editorMoveCursor E key).cursor_y = (moveCursorSwitch E key).cursor_y ∧
    (editorMoveCursor E key).cursor_x =
      min (moveCursorSwitch E key).cursor_x (cursorRowLength (moveCursorSwitch E key)) := by
  unfold editorMoveCursor
  generalize moveCursorSwitch E key = E1 at h ⊢
  obtain ⟨cx, cy, rx, ro, sr, co, scs, n, rows⟩ := E1
  obtain ⟨hy0, hy1, hx0⟩ := h
  simp only at hy0 hy1 hx0
  simp only [cursorRowLength_eq]
  by_cases hc : cx > (if cy ≥ (n : Int) then (0 : Int) else ((rowAt rows cy).length : Int))
  · rw [if_pos hc, min_eq_right (le_of_lt hc)]
    refine ⟨⟨hy0, hy1, ?_, ?_⟩, sameView_refl _, rfl, rfl⟩
    · show (0 : Int) ≤ if cy ≥ (n : Int) then (0 : Int) else ((rowAt rows cy).length : Int)
      split_ifs <;> omega
    · show (if cy ≥ (n : Int) then (0 : Int) else ((rowAt rows cy).length : Int))
        ≤ if cy = (n : Int) then (0 : Int) else ((rowAt rows cy).length : Int)
      split_ifs <;> omega
  · rw [if_neg hc, min_eq_left (not_lt.mp hc)]
    refine ⟨⟨hy0, hy1, hx0, ?_⟩, sameView_refl _, rfl, rfl⟩
    show cx ≤ if cy = (n : Int) then (0 : Int) else ((rowAt rows cy).length : Int)
    have hc' := not_lt.mp hc
    split_ifs at hc' ⊢ <;> omega

/-- The `switch` of `editorMoveCursor` keeps the cursor on a row index of the
document, and changes nothing but the cursor. -/
theorem moveCursorSwitch_ok (E : editorConfig) (key : Int) (h : cursorRowOk E) :
    cursorRowOk (moveCursorSwitch E key) ∧ sameView E (moveCursorSwitch E key) := by
  obtain ⟨cx, cy, rx, ro, sr, co, scs, n, rows⟩ := E
  obtain ⟨hy0, hy1, hx0⟩ := h
  simp only at hy0 hy1 hx0
  unfold moveCursorSwitch cursorRow cursorRowOk sameView
  simp only []
  by_cases hrow : cy ≥ (n : Int)
  · simp only [hrow, if_true]
    split_ifs <;> simp only [and_self, and_true] <;> omega
  · simp only [hrow, if_false]
    split_ifs <;> simp only [and_self, and_true] <;> omega

/-- A single call of `editorMoveCursor` from a cursor on a row index of the
document leaves a valid cursor on the same document and window. -/
theorem editorMoveCursor_ok (E : editorConfig) (key : Int) (h : cursorRowOk E) :
    cursorOk (editorMoveCursor E key) ∧ sameView E (editorMoveCursor E key) := by
  obtain ⟨h1, h2⟩ := moveCursorSwitch_ok E key h
  obtain ⟨k1, k2, _, _⟩ := editorMoveCursor_clamp E key h1
  exact ⟨k1, sameView_trans h2 k2⟩

theorem moveCursorSwitch_up (E : editorConfig) :
    moveCursorSwitch E ARROW_UP =
      if E.cursor_y ≠ 0 then { E with cursor_y := E.cursor_y - 1 } else E := by
  unfold moveCursorSwitch
  simp only [ARROW_UP, ARROW_LEFT, ARROW_RIGHT, ARROW_DOWN]
  rfl

theorem moveCursorSwitch_down (E : editorConfig) :
    moveCursorSwitch E ARROW_DOWN =
      if E.cursor_y < E.num_rows then { E with cursor_y := E.cursor_y + 1 } else E := by
  unfold moveCursorSwitch
  simp only [ARROW_UP, ARROW_LEFT, ARROW_RIGHT, ARROW_DOWN]
  rfl

/-- One step up: the row index goes down by one unless it is 0, and `cursor_x`
becomes the minimum of its old value and the length of the row reached. -/
theorem editorMoveCursor_up (E : editorConfig) (h : cursorRowOk E) :
    (editorMoveCursor E ARROW_UP).cursor_y = max 0 (E.cursor_y - 1) ∧
    (editorMoveCursor E ARROW_UP).cursor_x =
      min E.cursor_x (cursorRowLength (editorMoveCursor E ARROW_UP)) := by
  obtain ⟨h1, _⟩ := moveCursorSwitch_ok E ARROW_UP h
  obtain ⟨_, k2, k3, k4⟩ := editorMoveCursor_clamp E ARROW_UP h1
  have hlen : cursorRowLength (editorMoveCursor E ARROW_UP)
      = cursorRowLength (moveCursorSwitch E ARROW_UP) := by
    rw [cursorRowLength_eq, cursorRowLength_eq, k3, k2.2.2.2.2.2.1, k2.2.2.2.2.2.2]
  rw [k3, k4, hlen]
  obtain ⟨hy0, _, _⟩ := h
  rw [moveCursorSwitch_up]
  split_ifs with hy
  · exact ⟨by show E.cursor_y - 1 = _; omega, rfl⟩
  · exact ⟨by omega, rfl⟩

/-- One step down: the row index goes up by one unless it is `num_rows`, and
`cursor_x` becomes the minimum of its old value and the length of the row
reached. -/
theorem editorMoveCursor_down (E : editorConfig) (h : cursorRowOk E) :
    (editorMoveCursor E ARROW_DOWN).cursor_y = min (E.num_rows : Int) (E.cursor_y + 1) ∧
    (editorMoveCursor E ARROW_DOWN).cursor_x =
      min E.cursor_x (cursorRowLength (editorMoveCursor E ARROW_DOWN)) := by
  obtain ⟨h1, _⟩ := moveCursorSwitch_ok E ARROW_DOWN h
  obtain ⟨_, k2, k3, k4⟩ := editorMoveCursor_clamp E ARROW_DOWN h1
  have hlen : cursorRowLength (editorMoveCursor E ARROW_DOWN)
      = cursorRowLength (moveCursorSwitch E ARROW_DOWN) := by
    rw [cursorRowLength_eq, cursorRowLength_eq, k3, k2.2.2.2.2.2.1, k2.2.2.2.2.2.2]
  rw [k3, k4, hlen]
  obtain ⟨_, hy1, _⟩ := h
  rw [moveCursorSwitch_down]
  split_ifs with hy
  · exact ⟨by show E.cursor_y + 1 = _; omega, rfl⟩
  · exact ⟨by omega, rfl⟩

theorem moveCursorTimes_ok (key : Int) (times : Nat) : ∀ E : editorConfig, cursorOk E →
    cursorOk (moveCursorTimes times E key) ∧ sameView E (moveCursorTimes times E key) := by
  induction times with
  | zero => intro E h; exact ⟨h, sameView_refl E⟩
  | succ times ih =>
    intro E h
    obtain ⟨h1, h2⟩ := editorMoveCursor_ok E key (cursorOk_cursorRowOk h)
    obtain ⟨k1, k2⟩ := ih _ h1
    exact ⟨k1, sameView_trans h2 k2⟩

/-- The movement loop run at least once from a cursor on a row index of the
document leaves a valid cursor on the same document and window. -/
theorem moveCursorTimes_pos (key : Int) (times : Nat) (E : editorConfig) (h : cursorRowOk E) :
    cursorOk (moveCursorTimes (times + 1) E key) ∧
    sameView E (moveCursorTimes (times + 1) E key) := by
  obtain ⟨h1, h2⟩ := editorMoveCursor_ok E key h
  obtain ⟨k1, k2⟩ := moveCursorTimes_ok key times _ h1
  exact ⟨k1, sameView_trans h2 k2⟩

theorem moveCursorSwitch_left (E : editorConfig) :
    moveCursorSwitch E ARROW_LEFT =
      if E.cursor_x ≠ 0 then { E with cursor_x := E.cursor_x - 1 }
      else if E.cursor_y > 0 then
        { E with cursor_y := E.cursor_y - 1,
                 cursor_x := (rowAt E.rows (E.cursor_y - 1)).length }
      else E := rfl

theorem moveCursorSwitch_right (E : editorConfig) (h : E.cursor_y < E.num_rows) :
    moveCursorSwitch E ARROW_RIGHT =
      if E.cursor_x < (rowAt E.rows E.cursor_y).length then { E with cursor_x := E.cursor_x + 1 }
      else if E.cursor_x = (rowAt E.rows E.cursor_y).length then
        { E with cursor_x := 0, cursor_y := E.cursor_y + 1 }
      else E := by
  have hrow : cursorRow E = some (rowAt E.rows E.cursor_y) := by
    unfold cursorRow
    rw [if_neg (by omega)]
  unfold moveCursorSwitch
  simp only [hrow]
  rfl

theorem cursorRowLength_nonneg (E : editorConfig) : 0 ≤ cursorRowLength E := by
  rw [cursorRowLength_eq]
  split_ifs <;> omega

/-! ## Lemmas on `processKey` -/

theorem docOk_of_sameView {E E' : editorConfig} (h : sameView E E') (hdoc : docOk E) :
    docOk E' := by
  obtain ⟨_, _, _, _, _, hn, hr⟩ := h
  unfold docOk at hdoc ⊢
  rw [hn, hr]
  exact hdoc

/-- The character insertion keeps the document well formed and the cursor
valid. -/
theorem editorInsertChar_ok (signedChar : Bool) (E : editorConfig) (c : Nat)
    (hdoc : docOk E) (hcur : cursorOk E) :
    docOk (editorInsertChar signedChar E c) ∧ cursorOk (editorInsertChar signedChar E c) ∧
    (editorInsertChar signedChar E c).row_offset = E.row_offset ∧
    (editorInsertChar signedChar E c).screen_rows = E.screen_rows ∧
    E.num_rows ≤ (editorInsertChar signedChar E c).num_rows := by
  obtain ⟨cx, cy, rx, ro, sr, co, scs, n, rows⟩ := E
  obtain ⟨hn, hrows⟩ := hdoc
  obtain ⟨hy0, hy1, hx0, hx1⟩ := hcur
  simp only at hn hrows hy0 hy1 hx0 hx1
  subst hn
  obtain ⟨y, rfl⟩ := Int.eq_ofNat_of_zero_le hy0
  have hy : y ≤ rows.length := by omega
  rw [editorInsertChar_eq signedChar cx rx ro sr co scs y rows c hy]
  generalize hold : (if y = rows.length then (⟨0, 0, [], []⟩ : erow) else rowAt rows y) = old
  have holdOk : rowOk old := by
    rw [← hold]
    by_cases h : y = rows.length
    · rw [if_pos h]; rfl
    · rw [if_neg h]; exact hrows _ (rowAt_mem rows y (by omega))
  have hxold : cx ≤ (old.length : Int) := by
    rw [← hold]
    by_cases h : y = rows.length
    · rw [if_pos h]
      rw [if_pos (by omega)] at hx1
      exact hx1
    · rw [if_neg h]
      rw [if_neg (by omega)] at hx1
      exact hx1
  obtain ⟨_, _, hlen, hnewOk, _⟩ := editorInsertCharAt_spec old cx (charToInt signedChar c) holdOk
  generalize editorInsertCharAt old cx (charToInt signedChar c) = new at hlen hnewOk
  refine ⟨⟨?_, ?_⟩, ⟨hy0, ?_, ?_, ?_⟩, rfl, rfl, ?_⟩
  · show (rows.take y ++ new :: rows.drop (y + 1)).length
        = if y = rows.length then rows.length + 1 else rows.length
    simp only [List.length_append, List.length_take, List.length_cons, List.length_drop]
    split <;> omega
  · intro row hmem
    rcases List.mem_append.mp hmem with h | h
    · exact hrows row (List.mem_of_mem_take h)
    · rcases List.mem_cons.mp h with h | h
      · rw [h]; exact hnewOk
      · exact hrows row (List.mem_of_mem_drop h)
  · show (y : Int) ≤ ((if y = rows.length then rows.length + 1 else rows.length : Nat) : Int)
    split <;> omega
  · show 0 ≤ cx + 1
    omega
  · show cx + 1 ≤ if (y : Int) = ((if y = rows.length then rows.length + 1 else rows.length : Nat) : Int)
        then (0 : Int)
        else ((rowAt (rows.take y ++ new :: rows.drop (y + 1)) (y : Int)).length : Int)
    rw [rowAt_take_cons_drop rows y new hy, if_neg (by split <;> omega), hlen]
    push_cast
    omega
  · show rows.length ≤ if y = rows.length then rows.length + 1 else rows.length
    split <;> omega

theorem processKey_page_up (signedChar : Bool) (E : editorConfig) :
    processKey signedChar E PAGE_UP =
      some (moveCursorTimes E.screen_rows.toNat { E with cursor_y := E.row_offset } ARROW_UP) :=
  rfl

theorem processKey_page_down (signedChar : Bool) (E : editorConfig) :
    processKey signedChar E PAGE_DOWN =
      some (moveCursorTimes E.screen_rows.toNat
        { E with cursor_y := min (E.num_rows : Int) (E.row_offset + E.screen_rows + 1) }
        ARROW_DOWN) := by
  unfold processKey
  rw [if_neg (by decide), if_neg (by decide), if_neg (by decide), if_pos (by decide)]
  have hne : ¬ (PAGE_DOWN = PAGE_UP) := by decide
  simp only [hne, if_false]
  by_cases hgt : E.row_offset + E.screen_rows + 1 > (E.num_rows : Int)
  · rw [if_pos hgt, min_eq_left (by omega)]
  · rw [if_neg hgt, min_eq_right (by omega)]

/-- The page keys from a valid state: the loop runs at least once, from a
cursor set on a row index of the document. -/
theorem pageMove_ok (E : editorConfig) (y : Int) (key : Int) (hcur : cursorOk E)
    (hrows : 1 ≤ E.screen_rows) (hy0 : 0 ≤ y) (hy1 : y ≤ E.num_rows) :
    cursorOk (moveCursorTimes E.screen_rows.toNat { E with cursor_y := y } key) ∧
    sameView E (moveCursorTimes E.screen_rows.toNat { E with cursor_y := y } key) := by
  have hpos : E.screen_rows.toNat = (E.screen_rows.toNat - 1) + 1 := by omega
  have hok : cursorRowOk { E with cursor_y := y } := ⟨hy0, hy1, hcur.2.2.1⟩
  rw [hpos]
  obtain ⟨h1, h2⟩ := moveCursorTimes_pos key (E.screen_rows.toNat - 1) _ hok
  exact ⟨h1, sameView_trans ⟨rfl, rfl, rfl, rfl, rfl, rfl, rfl⟩ h2⟩

/-! ## Lemmas on the consistency of the render -/

theorem renderOk_editorUpdateRow (row : erow) : renderOk (editorUpdateRow row) :=
  ⟨rfl, updateRowLoop_length (row.chars.take row.length)⟩

theorem renderOk_editorInsertCharAt (row : erow) (col c : Int) :
    renderOk (editorInsertCharAt row col c) :=
  renderOk_editorUpdateRow _

theorem renderOk_setRowAt (rows : List erow) (i : Int) (new : erow)
    (h : ∀ row ∈ rows, renderOk row) (hnew : renderOk new) :
    ∀ row ∈ setRowAt rows i new, renderOk row := by
  intro row hmem
  unfold setRowAt at hmem
  split_ifs at hmem
  · exact h row hmem
  · rcases List.mem_or_eq_of_mem_set hmem with h1 | h1
    · exact h row h1
    · rw [h1]; exact hnew

theorem renderOk_editorAppendRow (E : editorConfig) (s : List Nat) (len : Nat)
    (h : ∀ row ∈ E.rows, renderOk row) :
    ∀ row ∈ (editorAppendRow E s len).rows, renderOk row := by
  intro row hmem
  rw [editorAppendRow_eq] at hmem
  rcases List.mem_append.mp hmem with h1 | h1
  · exact h row (List.mem_of_mem_take h1)
  · rw [List.mem_singleton.mp h1]
    exact renderOk_editorUpdateRow _

theorem renderOk_editorInsertChar (signedChar : Bool) (E : editorConfig) (c : Nat)
    (h : ∀ row ∈ E.rows, renderOk row) :
    ∀ row ∈ (editorInsertChar signedChar E c).rows, renderOk row := by
  unfold editorInsertChar
  simp only []
  apply renderOk_setRowAt
  · split_ifs
    · exact renderOk_editorAppendRow E [0] 0 h
    · exact h
  · exact renderOk_editorInsertCharAt _ _ _

/-! ## Lemmas on `editorDrawRows` -/

theorem take_drop_clamp (render : List Nat) (rl : Nat) (co scs : Int) (hrl : rl = render.length)
    (hco : 0 ≤ co) (hsc : 0 ≤ scs) :
    (render.drop co.toNat).take
        (if (if (rl : Int) - co < 0 then 0 else (rl : Int) - co) > scs then scs
          else (if (rl : Int) - co < 0 then 0 else (rl : Int) - co)).toNat
      = (render.drop co.toNat).take scs.toNat := by
  subst hrl
  by_cases hgt : (if (render.length : Int) - co < 0 then 0 else (render.length : Int) - co) > scs
  · rw [if_pos hgt]
  · rw [if_neg hgt]
    have hlen : (render.drop co.toNat).length
        ≤ (if (render.length : Int) - co < 0 then 0 else (render.length : Int) - co).toNat := by
      rw [List.length_drop]
      split_ifs <;> omega
    rw [List.take_of_length_le hlen, List.take_of_length_le]
    rw [List.length_drop]
    split_ifs at hgt <;> omega

/-- The bytes one iteration of the loop of `editorDrawRows` adds for a
non-empty document. -/
theorem editorDrawRow_eq (E : editorConfig) (ab : List Nat) (y : Nat)
    (hne : E.num_rows ≠ 0) (hn : E.rows.length = E.num_rows)
    (hrender : ∀ row ∈ E.rows, row.render_length = row.render.length)
    (hro : 0 ≤ E.row_offset) (hco : 0 ≤ E.col_offset) (hsc : 0 ≤ E.screen_cols) :
    editorDrawRow E ab (y : Int) =
      ab ++ ((if (y : Int) + E.row_offset < E.num_rows then
          ((rowAt E.rows ((y : Int) + E.row_offset)).render.drop E.col_offset.toNat).take
            E.screen_cols.toNat
        else [126]) ++ [27, 91, 75, 13, 10]) := by
  unfold editorDrawRow abAppend
  simp only []
  by_cases hrow : (y : Int) + E.row_offset ≥ E.num_rows
  · have h1 : ¬ ((y : Int) + E.row_offset < E.num_rows) := by omega
    have h2 : ¬ (E.num_rows = 0 ∧ (y : Int) = E.screen_rows / 3) := fun h => hne h.1
    rw [if_pos hrow, if_neg h2, if_neg h1]
    simp
  · have h1 : (y : Int) + E.row_offset < E.num_rows := by omega
    rw [if_neg hrow, if_pos h1]
    obtain ⟨k, hk⟩ := Int.eq_ofNat_of_zero_le (show 0 ≤ (y : Int) + E.row_offset by omega)
    have hmem : rowAt E.rows ((y : Int) + E.row_offset) ∈ E.rows := by
      rw [hk]
      exact rowAt_mem E.rows k (by omega)
    rw [take_drop_clamp _ _ _ _ (hrender _ hmem) hco hsc]
    simp

/-! ## Lemmas on the indices written by `editorAppendRow` -/

/-- For `1 ≤ len ≤ SIZE_MAX` every index `editorAppendRow(s, len)` writes lies
inside the `len + 1` bytes allocated. -/
theorem appendRowWrites_inside (len : Nat) (h1 : 1 ≤ len) (h2 : len ≤ SIZE_MAX) :
    ∀ i ∈ appendRowWrites len, i < appendRowAllocated len := by
  intro i hmem
  unfold appendRowWrites at hmem
  unfold appendRowAllocated
  rcases List.mem_append.mp hmem with h | h
  · have := List.mem_range.mp h
    omega
  · rw [List.mem_singleton.mp h, terminatorIndex_pos len h1 h2]
    omega

/-! ## Lemmas on the reads of `editorReadKey` -/

/-- After the byte 0x1b and an input that goes on with no recognized sequence,
the escape key is the result and the input is left without its first `n`
reads: `n = 3` exactly when the input starts with `[` and a digit (the third
read is made), `n = 1` exactly when the first read delivers no byte, and
`n = 2` otherwise. -/
theorem readEscapeSequence_unrecognized (input : List ReadResult)
    (h : ∀ seq ∈ recognizedSequences, ¬ (seq.map ReadResult.byte) <+: input) :
    ∃ n : Nat, 1 ≤ n ∧ n ≤ 3 ∧ readEscapeSequence input = (ESC, input.drop n) ∧
      (n = 3 ↔ ∃ d r, 48 ≤ d ∧ d ≤ 57 ∧ input = .byte 91 :: .byte d :: r) ∧
      (n = 1 ↔ ∀ c r, input ≠ .byte c :: r) := by
  match input, h with
  | [], _ => exact ⟨1, by omega, by omega, rfl, by simp, by simp⟩
  | ReadResult.timeout :: _, _ => exact ⟨1, by omega, by omega, rfl, by simp, by simp⟩
  | ReadResult.error :: _, _ => exact ⟨1, by omega, by omega, rfl, by simp, by simp⟩
  | [ReadResult.byte _], _ => exact ⟨2, by omega, by omega, rfl, by simp, by simp⟩
  | ReadResult.byte _ :: ReadResult.timeout :: _, _ =>
    exact ⟨2, by omega, by omega, rfl, by simp, by simp⟩
  | ReadResult.byte _ :: ReadResult.error :: _, _ =>
    exact ⟨2, by omega, by omega, rfl, by simp, by simp⟩
  | ReadResult.byte s0 :: ReadResult.byte s1 :: r, h =>
    simp only [recognizedSequences, List.mem_cons, List.mem_singleton, forall_eq_or_imp,
      forall_eq, List.map_cons, List.map_nil, List.cons_prefix_cons, ReadResult.byte.injEq,
      List.nil_prefix, and_true, List.not_mem_nil, false_implies, implies_true] at h
    by_cases h0 : s0 = 91
    · subst h0
      simp only [true_and] at h
      by_cases hd : 48 ≤ s1 ∧ s1 ≤ 57
      · refine ⟨3, by omega, by omega, ?_, ?_, by simp⟩
        · simp only [readEscapeSequence, readSeqByte]
          match r, h with
          | [], _ => simp [readSeqByte, hd]
          | ReadResult.timeout :: _, _ => simp [readSeqByte, hd]
          | ReadResult.error :: _, _ => simp [readSeqByte, hd]
          | ReadResult.byte s2 :: r2, h =>
            simp only [List.cons_prefix_cons, ReadResult.byte.injEq, List.nil_prefix,
              and_true] at h
            by_cases h2 : s2 = 126
            · subst h2
              simp only [and_true] at h
              obtain ⟨h49, h51, h52, h53, h54, h55, h56, _⟩ := h
              have e49 : ¬ s1 = 49 := fun e => h49 e.symm
              have e51 : ¬ s1 = 51 := fun e => h51 e.symm
              have e52 : ¬ s1 = 52 := fun e => h52 e.symm
              have e53 : ¬ s1 = 53 := fun e => h53 e.symm
              have e54 : ¬ s1 = 54 := fun e => h54 e.symm
              have e55 : ¬ s1 = 55 := fun e => h55 e.symm
              have e56 : ¬ s1 = 56 := fun e => h56 e.symm
              simp [readSeqByte, hd, e49, e51, e52, e53, e54, e55, e56]
            · simp [readSeqByte, hd, h2]
        · simp only [true_iff]
          exact ⟨s1, r, hd.1, hd.2, rfl⟩
      · refine ⟨2, by omega, by omega, ?_, ?_, by simp⟩
        · obtain ⟨_, _, _, _, _, _, _, h65, h66, h67, h68, h72, h70, _⟩ := h
          have e65 : ¬ s1 = 65 := fun e => h65 e.symm
          have e66 : ¬ s1 = 66 := fun e => h66 e.symm
          have e67 : ¬ s1 = 67 := fun e => h67 e.symm
          have e68 : ¬ s1 = 68 := fun e => h68 e.symm
          have e72 : ¬ s1 = 72 := fun e => h72 e.symm
          have e70 : ¬ s1 = 70 := fun e => h70 e.symm
          simp [readEscapeSequence, readSeqByte, hd, e65, e66, e67, e68, e72, e70]
        · constructor
          · intro e; omega
          · rintro ⟨d, r', hd1, hd2, heq⟩
            simp only [List.cons.injEq, ReadResult.byte.injEq, true_and] at heq
            exact absurd ⟨heq.1 ▸ hd1, heq.1 ▸ hd2⟩ hd
    · refine ⟨2, by omega, by omega, ?_, ?_, by simp⟩
      · by_cases hO : s0 = 79
        · subst hO
          simp only [true_and] at h
          obtain ⟨_, _, _, _, _, _, _, _, _, _, _, _, _, h72, h70⟩ := h
          have e72 : ¬ s1 = 72 := fun e => h72 e.symm
          have e70 : ¬ s1 = 70 := fun e => h70 e.symm
          simp [readEscapeSequence, readSeqByte, e72, e70]
        · simp [readEscapeSequence, readSeqByte, h0, hO]
      · constructor
        · intro e; omega
        · rintro ⟨d, r', _, _, heq⟩
          simp only [List.cons.injEq, ReadResult.byte.injEq] at heq
          exact absurd heq.1 h0

/-! ## Claims -/

/-- C1: `editorUpdateRow` renders the empty content as the empty render; for a
content `pre ++ [ch]` it keeps the content and the render of `pre` and adds,
for a byte `ch` other than a tab, that byte, and for a tab `k` spaces with
`1 ≤ k ≤ TAB_LENGTH` that end on a multiple of `TAB_LENGTH`; `render_length`
is the number of bytes of `render`, which is the content length plus the
spaces added for tabs beyond one per tab; the content `"a\tb"` renders as
`"a   b"` with `render_length` 5. -/
theorem editorUpdateRow_tab_expansion (pre : List Nat) (ch rl : Nat) (rnd : List Nat)
    (content : List Nat) (hcontent : content = pre ++ [ch])
    (old new : erow) (hold : old = editorUpdateRow ⟨pre.length, rl, pre, rnd⟩)
    (hnew : new = editorUpdateRow ⟨content.length, rl, content, rnd⟩) :
    (editorUpdateRow ⟨0, rl, [], rnd⟩ = ⟨0, 0, [], []⟩) ∧
    (new.chars = content ∧ new.length = content.length) ∧
    (if ch = 9 then
      ∃ k, 1 ≤ k ∧ k ≤ TAB_LENGTH ∧ new.render = old.render ++ List.replicate k 32 ∧
        new.render_length = old.render_length + k ∧ new.render_length % TAB_LENGTH = 0
    else new.render = old.render ++ [ch] ∧ new.render_length = old.render_length + 1) ∧
    new.render_length = new.render.length ∧
    new.render_length + (content.count 32 + content.count 9) =
      content.length + new.render.count 32 ∧
    editorUpdateRow ⟨3, rl, [97, 9, 98], rnd⟩ = ⟨3, 5, [97, 9, 98], [97, 32, 32, 32, 98]⟩ := by
  subst hcontent hold hnew
  generalize hc : pre ++ [ch] = content
  generalize ho : editorUpdateRow ⟨pre.length, rl, pre, rnd⟩ = old
  generalize hn : editorUpdateRow ⟨content.length, rl, content, rnd⟩ = new
  have hnew : new = ⟨content.length, (content.foldl updateRowStep ([], 0)).2, content,
      (content.foldl updateRowStep ([], 0)).1⟩ := by
    rw [← hn, editorUpdateRow_eq, List.take_length]
  have hold : old = ⟨pre.length, (pre.foldl updateRowStep ([], 0)).2, pre,
      (pre.foldl updateRowStep ([], 0)).1⟩ := by
    rw [← ho, editorUpdateRow_eq, List.take_length]
  have hfold : content.foldl updateRowStep ([], 0)
      = updateRowStep (pre.foldl updateRowStep ([], 0)) ch := by
    rw [← hc, List.foldl_append, List.foldl_cons, List.foldl_nil]
  refine ⟨rfl, ⟨by rw [hnew], by rw [hnew]⟩, ?_, ?_, ?_, rfl⟩
  · rw [hnew, hold, hfold]
    generalize pre.foldl updateRowStep ([], 0) = st
    obtain ⟨r, n⟩ := st
    by_cases h : ch = 9
    · subst h
      rw [if_pos rfl, updateRowStep_tab]
      refine ⟨TAB_LENGTH - n % TAB_LENGTH, ?_, ?_, rfl, rfl, ?_⟩
      · unfold TAB_LENGTH; omega
      · unfold TAB_LENGTH; omega
      · show (n + (TAB_LENGTH - n % TAB_LENGTH)) % TAB_LENGTH = 0
        unfold TAB_LENGTH; omega
    · rw [if_neg h, updateRowStep_other _ _ _ h]
      exact ⟨rfl, rfl⟩
  · rw [hnew]
    exact updateRowLoop_length content
  · rw [hnew]
    have := updateRowLoop_count content
    show (content.foldl updateRowStep ([], 0)).2 + (content.count 32 + content.count 9)
      = content.length + (content.foldl updateRowStep ([], 0)).1.count 32
    omega

/-- An instance: the content `"a"` followed by a tab, whose expansion is three spaces. -/
theorem editorUpdateRow_tab_expansion_witness :
    (editorUpdateRow ⟨2, 0, [97, 9], []⟩).render
      = (editorUpdateRow ⟨1, 0, [97], []⟩).render ++ List.replicate 3 32 ∧
    (editorUpdateRow ⟨2, 0, [97, 9], []⟩).render_length = 4 := by
  have h := editorUpdateRow_tab_expansion [97] 9 0 [] [97, 9] rfl
    (editorUpdateRow ⟨1, 0, [97], []⟩) (editorUpdateRow ⟨2, 0, [97, 9], []⟩) rfl rfl
  exact ⟨by decide, by rw [h.2.2.2.1]; decide⟩

/-- C2: at the call `editorAppendRow("a\n", 2)`, which `openEditor` makes for
the file line `"a\n"`, on the state left by `initEditor`, the new row has
length 2 and the bytes `"a\0"`: the terminator is stored at index `len - 1`
and replaces the last of the given bytes. -/
theorem editorAppendRow_overwrites_last_byte :
    editorAppendRow (initEditor 24 80) [97, 10] 2 =
      { initEditor 24 80 with num_rows := 1, rows := [⟨2, 2, [97, 0], [97, 0]⟩] } := by
  decide

/-- C3: for the file with the single line `"a\n"`, `openEditor` leaves one row
of length 2 with the bytes `"a\0"`, one byte more than the stripped line
`"a"`. -/
theorem openEditor_row_has_extra_byte :
    openEditor (initEditor 24 80) (some [[97, 10]]) =
      some { initEditor 24 80 with num_rows := 1, rows := [⟨2, 2, [97, 0], [97, 0]⟩] } := by
  decide

/-- C4, as stated, fails: for the row `"ab"` and the column -1, which clamped
into `[0, 2]` is 0, `editorInsertCharAt` puts the byte `x` at the end and not
at index 0. -/
theorem editorInsertCharAt_negative_col :
    (editorInsertCharAt ⟨2, 2, [97, 98], [97, 98]⟩ (-1) 120).chars = [97, 98, 120] ∧
    (editorInsertCharAt ⟨2, 2, [97, 98], [97, 98]⟩ (-1) 120).chars ≠
      List.take (max 0 (min (-1) 2) : Int).toNat [97, 98] ++
        120 :: List.drop (max 0 (min (-1) 2) : Int).toNat [97, 98] := by
  decide

/-- C4, amended: for a row with `length` bytes of content, a byte `c` and an
integer `col`, let `k` be `col` when `0 ≤ col ≤ length` and `length` otherwise.
Then `editorInsertCharAt(row, col, c)` yields the first `k` old bytes, then
`c`, then the remaining old bytes; the length grows by one, and removing the
byte at index `k` restores the old content. -/
theorem editorInsertCharAt_inserts (row : erow) (col : Int) (c : Nat)
    (hrow : rowOk row) (hc : c < 256)
    (k : Nat) (hk : k = if 0 ≤ col ∧ col ≤ row.length then col.toNat else row.length)
    (new : erow) (hnew : new = editorInsertCharAt row col c) :
    k ≤ row.length ∧
    new.chars = row.chars.take k ++ c :: row.chars.drop k ∧
    new.length = row.length + 1 ∧
    rowOk new ∧
    new.chars.eraseIdx k = row.chars := by
  subst hk hnew
  have hbyte : intToChar (c : Int) = c := by
    unfold intToChar
    omega
  have h := editorInsertCharAt_spec row col c hrow
  simp only [hbyte] at h
  exact h

/-- An instance: the byte `x` inserted at column 1 of the row `"ab"`. -/
theorem editorInsertCharAt_inserts_witness :
    rowOk ⟨2, 2, [97, 98], [97, 98]⟩ ∧ (120 < 256) ∧
    (editorInsertCharAt ⟨2, 2, [97, 98], [97, 98]⟩ 1 (120 : Nat)).chars = [97, 120, 98] :=
  ⟨by decide, by decide,
    (editorInsertCharAt_inserts ⟨2, 2, [97, 98], [97, 98]⟩ 1 120 (by decide) (by decide)
      1 (by decide) _ rfl).2.1⟩

/-- C5: on a well-formed document with `0 ≤ cursor_y ≤ num_rows` and
`0 ≤ cursor_x ≤` the length of the cursor row (0 at the append position),
`editorInsertChar(c)` adds one row exactly when `cursor_y == num_rows`, leaves
every row other than the cursor row unchanged, makes the cursor row the old
one (the empty row at the append position) with `c` inserted at `cursor_x`
and freshly rendered, keeps `cursor_y` and the window, and adds one to
`cursor_x`; from the empty document with cursor (0,0), inserting `h` then `i`
leaves the single row with content and render `"hi"` and the cursor at row 0,
column 2. -/
theorem editorInsertChar_effect (signedChar : Bool) (E : editorConfig) (c : Nat)
    (hdoc : docOk E) (hy0 : 0 ≤ E.cursor_y) (hy1 : E.cursor_y ≤ E.num_rows)
    (hx0 : 0 ≤ E.cursor_x) (hx1 : E.cursor_x ≤ (rowAt E.rows E.cursor_y).length)
    (hc : c < 256)
    (E' : editorConfig) (hE : E' = editorInsertChar signedChar E c)
    (y x : Nat) (hytoNat : y = E.cursor_y.toNat) (hxtoNat : x = E.cursor_x.toNat)
    (old new : erow)
    (hdefold : old = if E.cursor_y = E.num_rows then ⟨0, 0, [], []⟩ else rowAt E.rows E.cursor_y)
    (hdefnew : new = rowAt E'.rows E.cursor_y) :
    (E'.num_rows = if E.cursor_y = E.num_rows then E.num_rows + 1 else E.num_rows) ∧
    E'.rows = E.rows.take y ++ new :: E.rows.drop (y + 1) ∧
    (∀ i : Nat, i ≠ y → E'.rows[i]? = E.rows[i]?) ∧
    new.chars = old.chars.take x ++ c :: old.chars.drop x ∧
    new.length = old.length + 1 ∧
    editorUpdateRow new = new ∧
    E'.cursor_y = E.cursor_y ∧ E'.cursor_x = E.cursor_x + 1 ∧
    (E'.render_x = E.render_x ∧ E'.row_offset = E.row_offset ∧
      E'.screen_rows = E.screen_rows ∧ E'.col_offset = E.col_offset ∧
      E'.screen_cols = E.screen_cols) ∧
    docOk E' ∧
    (∀ rx ro sr co scs : Int,
      editorInsertChar signedChar
          (editorInsertChar signedChar ⟨0, 0, rx, ro, sr, co, scs, 0, []⟩ 104) 105 =
        ⟨2, 0, rx, ro, sr, co, scs, 1, [⟨2, 2, [104, 105], [104, 105]⟩]⟩) := by
  subst hE hytoNat hxtoNat hdefold hdefnew
  obtain ⟨cx, cy, rx, ro, sr, co, scs, n, rows⟩ := E
  obtain ⟨hn, hrows⟩ := hdoc
  simp only at hy0 hy1 hx0 hx1 hn hrows
  subst hn
  obtain ⟨y, rfl⟩ := Int.eq_ofNat_of_zero_le hy0
  obtain ⟨x, rfl⟩ := Int.eq_ofNat_of_zero_le hx0
  have hy : y ≤ rows.length := by omega
  simp only []
  generalize hgE : editorInsertChar signedChar ⟨x, y, rx, ro, sr, co, scs, rows.length, rows⟩ c
    = E'
  generalize hgy : (y : Int).toNat = y'
  generalize hgx : (x : Int).toNat = x'
  generalize hgold : (if (y : Int) = (rows.length : Int) then (⟨0, 0, [], []⟩ : erow)
    else rowAt rows y) = old
  generalize hgnew : rowAt E'.rows (y : Int) = new
  have hy' : y' = y := by rw [← hgy]; exact Int.toNat_natCast y
  have hx' : x' = x := by rw [← hgx]; exact Int.toNat_natCast x
  have hcond : ((y : Int) = (rows.length : Int)) ↔ y = rows.length := by omega
  have hold : old = if y = rows.length then ⟨0, 0, [], []⟩ else rowAt rows y := by
    rw [← hgold]
    by_cases h : y = rows.length
    · rw [if_pos h, if_pos (hcond.mpr h)]
    · rw [if_neg h, if_neg (fun e => h (hcond.mp e))]
  have hold' : old = rowAt rows y := by
    rw [hold]
    by_cases h : y = rows.length
    · rw [if_pos h, h, rowAt_length]
    · rw [if_neg h]
  have holdOk : rowOk old := by
    rw [hold]
    by_cases h : y = rows.length
    · rw [if_pos h]; rfl
    · rw [if_neg h]; exact hrows _ (rowAt_mem rows y (by omega))
  have hE' : E' = ⟨(x : Int) + 1, y, rx, ro, sr, co, scs,
      if y = rows.length then rows.length + 1 else rows.length,
      rows.take y ++ editorInsertCharAt old x (charToInt signedChar c) :: rows.drop (y + 1)⟩ := by
    rw [hold, ← hgE]
    exact editorInsertChar_eq signedChar x rx ro sr co scs y rows c hy
  have hnew : new = editorInsertCharAt old x (charToInt signedChar c) := by
    rw [← hgnew, hE']
    exact rowAt_take_cons_drop rows y _ hy
  have hxle : (x : Int) ≤ (old.length : Int) := by rw [hold']; exact hx1
  have hk : (if 0 ≤ (x : Int) ∧ (x : Int) ≤ (old.length : Int) then (x : Int).toNat
      else old.length) = x := by
    rw [if_pos ⟨by omega, hxle⟩, Int.toNat_natCast]
  have hspec := editorInsertCharAt_spec old x (charToInt signedChar c) holdOk
  rw [hk, intToChar_charToInt signedChar c hc, ← hnew] at hspec
  obtain ⟨_, hchars, hlen, hnewOk, _⟩ := hspec
  have hrowsE' : E'.rows = rows.take y ++ new :: rows.drop (y + 1) := by
    rw [hnew, hE']
  refine ⟨?_, ?_, ?_, ?_, hlen, ?_, ?_, ?_, ?_, ?_, ?_⟩
  · rw [hE']
    show (if y = rows.length then rows.length + 1 else rows.length)
      = if (y : Int) = (rows.length : Int) then rows.length + 1 else rows.length
    by_cases h : y = rows.length
    · rw [if_pos h, if_pos (hcond.mpr h)]
    · rw [if_neg h, if_neg (fun e => h (hcond.mp e))]
  · rw [hy']; exact hrowsE'
  · intro i hi
    rw [hrowsE']
    exact getElem_take_cons_drop rows y i new hy (by rw [← hy']; exact hi)
  · rw [hx']; exact hchars
  · rw [hnew]; rfl
  · rw [hE']
  · rw [hE']
  · rw [hE']; exact ⟨rfl, rfl, rfl, rfl, rfl⟩
  · constructor
    · rw [hrowsE', hE']
      show (rows.take y ++ new :: rows.drop (y + 1)).length
        = if y = rows.length then rows.length + 1 else rows.length
      simp only [List.length_append, List.length_take, List.length_cons, List.length_drop]
      split <;> omega
    · intro row hmem
      rw [hrowsE'] at hmem
      rcases List.mem_append.mp hmem with h | h
      · exact hrows row (List.mem_of_mem_take h)
      · rcases List.mem_cons.mp h with h | h
        · rw [h]; exact hnewOk
        · exact hrows row (List.mem_of_mem_drop h)
  · intro rx ro sr co scs
    cases signedChar <;> rfl

/-- An instance: the byte `h` typed into the empty document of a 24 by 80 window. -/
theorem editorInsertChar_effect_witness :
    docOk (initEditor 24 80) ∧
    (editorInsertChar true (initEditor 24 80) 104).rows = [⟨1, 1, [104], [104]⟩] ∧
    (editorInsertChar true (initEditor 24 80) 104).cursor_x = 1 := by
  have h := editorInsertChar_effect true (initEditor 24 80) 104 (by decide) (by decide)
    (by decide) (by decide) (by decide) (by decide) _ rfl 0 0 rfl rfl _ _ rfl rfl
  exact ⟨by decide, by decide, h.2.2.2.2.2.2.2.1⟩

/-- C6: for a well-formed document, `editorRowsToString` returns the
concatenation, in row order, of each row's content followed by one newline
byte, reports as length the sum over the rows of `length + 1`, which is the
number of bytes of the buffer; for the empty document the buffer is empty and
the length 0. -/
theorem editorRowsToString_concat (E : editorConfig) (hdoc : docOk E) :
    (editorRowsToString E).1 = (E.rows.map (fun row => row.chars ++ [10])).flatten ∧
    (editorRowsToString E).2 = (E.rows.map (fun row => row.length + 1)).sum ∧
    (editorRowsToString E).1.length = (editorRowsToString E).2 ∧
    (∀ cx cy rx ro sr co scs : Int,
      editorRowsToString ⟨cx, cy, rx, ro, sr, co, scs, 0, []⟩ = ([], 0)) := by
  obtain ⟨hn, hrows⟩ := hdoc
  have htake : E.rows.take E.num_rows = E.rows := by rw [← hn, List.take_length]
  have hmap : E.rows.map (fun row => row.chars.take row.length ++ [10])
      = E.rows.map (fun row => row.chars ++ [10]) := by
    apply List.map_congr_left
    intro row hmem
    have h : row.chars.length = row.length := hrows row hmem
    rw [List.take_of_length_le (Nat.le_of_eq h)]
  have h1 : (editorRowsToString E).1 = (E.rows.map (fun row => row.chars ++ [10])).flatten := by
    rw [editorRowsToString_eq, htake, hmap]
  have h2 : (editorRowsToString E).2 = (E.rows.map (fun row => row.length + 1)).sum := by
    rw [editorRowsToString_eq, htake]
  refine ⟨h1, h2, ?_, ?_⟩
  · rw [h1, h2, List.length_flatten, List.map_map]
    congr 1
    apply List.map_congr_left
    intro row hmem
    have h : row.chars.length = row.length := hrows row hmem
    simp [h]
  · intro cx cy rx ro sr co scs
    rfl

/-- An instance: the document of the two rows `"hi"` and `""`. -/
theorem editorRowsToString_concat_witness :
    docOk ⟨0, 0, 0, 0, 22, 0, 80, 2, [⟨2, 2, [104, 105], [104, 105]⟩, ⟨0, 0, [], []⟩]⟩ ∧
    (editorRowsToString
      ⟨0, 0, 0, 0, 22, 0, 80, 2, [⟨2, 2, [104, 105], [104, 105]⟩, ⟨0, 0, [], []⟩]⟩).1
      = [104, 105, 10, 10] :=
  ⟨by decide,
    (editorRowsToString_concat
      ⟨0, 0, 0, 0, 22, 0, 80, 2, [⟨2, 2, [104, 105], [104, 105]⟩, ⟨0, 0, [], []⟩]⟩
      (by decide)).1⟩

/-- C7: with a window of 80 columns, `col_offset` 0 and the cursor at the end
of a row of 80 bytes (render column 80, the right edge), `editorScroll` sets
`col_offset` to `80 + 80 + 1 = 161`, not to `80 - 80 + 1 = 1`, and the render
column is then left of the window. -/
theorem editorScroll_right_edge :
    editorScroll ⟨80, 0, 79, 0, 22, 0, 80, 1,
        [⟨80, 80, List.replicate 80 97, List.replicate 80 97⟩]⟩ =
      ⟨80, 0, 80, 0, 22, 161, 80, 1,
        [⟨80, 80, List.replicate 80 97, List.replicate 80 97⟩]⟩ := by
  decide

/-- C8: when `screen_rows ≥ 1`, `row_offset ≥ 0` and `cursor_y ≥ 0`, after
`editorScroll` the offset is non-negative and the cursor row lies in the
vertical window, `0 ≤ row_offset ≤ cursor_y < row_offset + screen_rows`, and
`cursor_x`, `cursor_y` (and the window height) are unchanged. -/
theorem editorScroll_vertical (E : editorConfig) (hrows : 1 ≤ E.screen_rows)
    (hoff : 0 ≤ E.row_offset) (hy : 0 ≤ E.cursor_y) :
    0 ≤ (editorScroll E).row_offset ∧
    (editorScroll E).row_offset ≤ (editorScroll E).cursor_y ∧
    (editorScroll E).cursor_y < (editorScroll E).row_offset + (editorScroll E).screen_rows ∧
    (editorScroll E).cursor_x = E.cursor_x ∧
    (editorScroll E).cursor_y = E.cursor_y ∧
    (editorScroll E).screen_rows = E.screen_rows := by
  rw [editorScroll_eq]
  obtain ⟨cx, cy, rx, ro, sr, co, scs, n, rows⟩ := E
  simp only at hrows hoff hy ⊢
  refine ⟨?_, ?_, ?_, trivial, trivial, trivial⟩ <;> split_ifs <;> omega

/-- An instance: the cursor on row 30 with 22 screen rows and offset 0. -/
theorem editorScroll_vertical_witness :
    (editorScroll ⟨0, 30, 0, 0, 22, 0, 80, 0, []⟩).row_offset ≤ 30 ∧
    (30 : Int) < (editorScroll ⟨0, 30, 0, 0, 22, 0, 80, 0, []⟩).row_offset + 22 :=
  ⟨(editorScroll_vertical ⟨0, 30, 0, 0, 22, 0, 80, 0, []⟩ (by decide) (by decide)
      (by decide)).2.1,
    (editorScroll_vertical ⟨0, 30, 0, 0, 22, 0, 80, 0, []⟩ (by decide) (by decide)
      (by decide)).2.2.1⟩

/-- C9: on an input that starts with a recognized escape sequence
`editorReadKey` returns the named key: `ESC [ d ~` gives Home for `d` 1 or 7,
Delete for 3, End for 4 or 8, Page Up for 5, Page Down for 6; `ESC [` with
A, B, C, D gives Up, Down, Right, Left, with H Home, with F End; `ESC O H`
gives Home and `ESC O F` End. -/
theorem editorReadKey_recognized (signedChar : Bool) (rest : List ReadResult) :
    editorReadKey signedChar (.byte 27 :: .byte 91 :: .byte 49 :: .byte 126 :: rest) = .key HOME_KEY rest ∧
    editorReadKey signedChar (.byte 27 :: .byte 91 :: .byte 55 :: .byte 126 :: rest) = .key HOME_KEY rest ∧
    editorReadKey signedChar (.byte 27 :: .byte 91 :: .byte 51 :: .byte 126 :: rest) = .key DEL_KEY rest ∧
    editorReadKey signedChar (.byte 27 :: .byte 91 :: .byte 52 :: .byte 126 :: rest) = .key END_KEY rest ∧
    editorReadKey signedChar (.byte 27 :: .byte 91 :: .byte 56 :: .byte 126 :: rest) = .key END_KEY rest ∧
    editorReadKey signedChar (.byte 27 :: .byte 91 :: .byte 53 :: .byte 126 :: rest) = .key PAGE_UP rest ∧
    editorReadKey signedChar (.byte 27 :: .byte 91 :: .byte 54 :: .byte 126 :: rest) = .key PAGE_DOWN rest ∧
    editorReadKey signedChar (.byte 27 :: .byte 91 :: .byte 65 :: rest) = .key ARROW_UP rest ∧
    editorReadKey signedChar (.byte 27 :: .byte 91 :: .byte 66 :: rest) = .key ARROW_DOWN rest ∧
    editorReadKey signedChar (.byte 27 :: .byte 91 :: .byte 67 :: rest) = .key ARROW_RIGHT rest ∧
    editorReadKey signedChar (.byte 27 :: .byte 91 :: .byte 68 :: rest) = .key ARROW_LEFT rest ∧
    editorReadKey signedChar (.byte 27 :: .byte 91 :: .byte 72 :: rest) = .key HOME_KEY rest ∧
    editorReadKey signedChar (.byte 27 :: .byte 91 :: .byte 70 :: rest) = .key END_KEY rest ∧
    editorReadKey signedChar (.byte 27 :: .byte 79 :: .byte 72 :: rest) = .key HOME_KEY rest ∧
    editorReadKey signedChar (.byte 27 :: .byte 79 :: .byte 70 :: rest) = .key END_KEY rest :=
  ⟨rfl, rfl, rfl, rfl, rfl, rfl, rfl, rfl, rfl, rfl, rfl, rfl, rfl, rfl, rfl⟩

/-- C10: on an input that starts with the byte 0x1b and does not go on with
one of the recognized sequences, `editorReadKey` returns the bare escape key
0x1b; it neither ends the program nor blocks.  This covers a first, second or
third following read that does not deliver a byte (a timeout, also an error),
a byte other than `~` after `ESC [ digit`, the digits 0, 2 and 9, and bytes
that match no `case`. -/
theorem editorReadKey_bare_escape (signedChar : Bool) (input : List ReadResult)
    (h : ∀ seq ∈ recognizedSequences, ¬ (seq.map ReadResult.byte) <+: input) :
    ∃ rest, editorReadKey signedChar (ReadResult.byte 27 :: input) = KeyResult.key ESC rest := by
  have hkey : editorReadKey signedChar (ReadResult.byte 27 :: input)
      = KeyResult.key (readEscapeSequence input).1 (readEscapeSequence input).2 := rfl
  refine ⟨(readEscapeSequence input).2, ?_⟩
  rw [hkey]
  congr 1
  match input, h with
  | [], _ => rfl
  | ReadResult.timeout :: _, _ => rfl
  | ReadResult.error :: _, _ => rfl
  | [ReadResult.byte _], _ => rfl
  | ReadResult.byte _ :: ReadResult.timeout :: _, _ => rfl
  | ReadResult.byte _ :: ReadResult.error :: _, _ => rfl
  | ReadResult.byte s0 :: ReadResult.byte s1 :: r, h =>
    simp only [recognizedSequences, List.mem_cons, List.mem_singleton, forall_eq_or_imp,
      forall_eq, List.map_cons, List.map_nil, List.cons_prefix_cons, ReadResult.byte.injEq,
      List.nil_prefix, and_true, List.not_mem_nil, false_implies, implies_true] at h
    simp only [readEscapeSequence, readSeqByte]
    by_cases h0 : s0 = 91
    · subst h0
      simp only [true_and] at h
      by_cases hd : 48 ≤ s1 ∧ s1 ≤ 57
      · match r, h with
        | [], _ => simp [readSeqByte, hd]
        | ReadResult.timeout :: _, _ => simp [readSeqByte, hd]
        | ReadResult.error :: _, _ => simp [readSeqByte, hd]
        | ReadResult.byte s2 :: r2, h =>
          simp only [List.cons_prefix_cons, ReadResult.byte.injEq, List.nil_prefix,
            and_true] at h
          by_cases h2 : s2 = 126
          · subst h2
            simp only [and_true] at h
            obtain ⟨h49, h51, h52, h53, h54, h55, h56, _⟩ := h
            have e49 : ¬ s1 = 49 := fun e => h49 e.symm
            have e51 : ¬ s1 = 51 := fun e => h51 e.symm
            have e52 : ¬ s1 = 52 := fun e => h52 e.symm
            have e53 : ¬ s1 = 53 := fun e => h53 e.symm
            have e54 : ¬ s1 = 54 := fun e => h54 e.symm
            have e55 : ¬ s1 = 55 := fun e => h55 e.symm
            have e56 : ¬ s1 = 56 := fun e => h56 e.symm
            simp [readSeqByte, hd, e49, e51, e52, e53, e54, e55, e56]
          · simp [readSeqByte, hd, h2]
      · obtain ⟨_, _, _, _, _, _, _, h65, h66, h67, h68, h72, h70, _⟩ := h
        have e65 : ¬ s1 = 65 := fun e => h65 e.symm
        have e66 : ¬ s1 = 66 := fun e => h66 e.symm
        have e67 : ¬ s1 = 67 := fun e => h67 e.symm
        have e68 : ¬ s1 = 68 := fun e => h68 e.symm
        have e72 : ¬ s1 = 72 := fun e => h72 e.symm
        have e70 : ¬ s1 = 70 := fun e => h70 e.symm
        simp [hd, e65, e66, e67, e68, e72, e70]
    · by_cases hO : s0 = 79
      · subst hO
        simp only [true_and] at h
        obtain ⟨_, _, _, _, _, _, _, _, _, _, _, _, _, h72, h70⟩ := h
        have e72 : ¬ s1 = 72 := fun e => h72 e.symm
        have e70 : ¬ s1 = 70 := fun e => h70 e.symm
        simp [e72, e70]
      · simp [h0, hO]

/-- An instance: the input `ESC [ 2 ~ q`, whose digit has no `case`. -/
theorem editorReadKey_bare_escape_witness :
    (∀ seq ∈ recognizedSequences,
      ¬ (seq.map ReadResult.byte) <+:
        [ReadResult.byte 91, ReadResult.byte 50, ReadResult.byte 126, ReadResult.byte 113]) ∧
    ∃ rest, editorReadKey true
        [ReadResult.byte 27, ReadResult.byte 91, ReadResult.byte 50, ReadResult.byte 126,
          ReadResult.byte 113] = KeyResult.key ESC rest :=
  ⟨by decide, editorReadKey_bare_escape true
    [ReadResult.byte 91, ReadResult.byte 50, ReadResult.byte 126, ReadResult.byte 113]
    (by decide)⟩

/-- C16: for columns `0 ≤ c1 ≤ c2 ≤ length` of a row,
`cursorXToRenderX(row, c1) ≤ cursorXToRenderX(row, c2)`, and
`cursorXToRenderX(row, 0) = 0`; the result depends on the row and the column
only, so two calls with no change of the row in between agree. -/
theorem cursorXToRenderX_monotone (row : erow) (c1 c2 : Int)
    (_h0 : 0 ≤ c1) (h12 : c1 ≤ c2) (_h2 : c2 ≤ row.length) :
    cursorXToRenderX row c1 ≤ cursorXToRenderX row c2 ∧
    cursorXToRenderX row 0 = 0 ∧
    (∀ first second : Int, first = cursorXToRenderX row c1 →
      second = cursorXToRenderX row c1 → first = second) := by
  refine ⟨cursorXToRenderX_mono row c1 c2 h12, rfl, ?_⟩
  intro first second hf hs
  rw [hf, hs]

/-- An instance: the columns 1 and 2 of the row `"a\tb"`, render columns 1
and 4. -/
theorem cursorXToRenderX_monotone_witness :
    cursorXToRenderX ⟨3, 5, [97, 9, 98], [97, 32, 32, 32, 98]⟩ 1 ≤
      cursorXToRenderX ⟨3, 5, [97, 9, 98], [97, 32, 32, 32, 98]⟩ 2 ∧
    cursorXToRenderX ⟨3, 5, [97, 9, 98], [97, 32, 32, 32, 98]⟩ 2 = 4 :=
  ⟨(cursorXToRenderX_monotone ⟨3, 5, [97, 9, 98], [97, 32, 32, 32, 98]⟩ 1 2
      (by decide) (by decide) (by decide)).1, by decide⟩

/-- C19: for a column `0 ≤ cx ≤ length` of a row, `cursorXToRenderX(row, cx)`
is the `render_length` that `editorUpdateRow` computes for the row made of the
first `cx` bytes of the content; at `cx = length` it is the `render_length` of
the row itself, and for every such `cx` it is at most that `render_length`,
the number of bytes of the render. -/
theorem cursorXToRenderX_render_length (row : erow) (cx : Int)
    (_h0 : 0 ≤ cx) (h1 : cx ≤ row.length) :
    cursorXToRenderX row cx =
      (editorUpdateRow { row with length := cx.toNat,
                                  chars := row.chars.take cx.toNat }).render_length ∧
    cursorXToRenderX row row.length = (editorUpdateRow row).render_length ∧
    cursorXToRenderX row cx ≤ (editorUpdateRow row).render_length ∧
    (editorUpdateRow row).render_length = (editorUpdateRow row).render.length := by
  refine ⟨cursorXToRenderX_firstBytes row cx, cursorXToRenderX_length row, ?_, ?_⟩
  · rw [← cursorXToRenderX_length]
    exact cursorXToRenderX_mono row cx row.length h1
  · exact updateRowLoop_length (row.chars.take row.length)

/-- An instance: column 2 of the row `"a\tb"`, after the tab. -/
theorem cursorXToRenderX_render_length_witness :
    cursorXToRenderX ⟨3, 5, [97, 9, 98], [97, 32, 32, 32, 98]⟩ 2 =
      (editorUpdateRow ⟨2, 5, [97, 9], [97, 32, 32, 32, 98]⟩).render_length ∧
    (editorUpdateRow ⟨2, 5, [97, 9], [97, 32, 32, 32, 98]⟩).render_length = 4 :=
  ⟨(cursorXToRenderX_render_length ⟨3, 5, [97, 9, 98], [97, 32, 32, 32, 98]⟩ 2
      (by decide) (by decide)).1, by decide⟩

/-- C13: with `cursor_x == 0` and `0 < cursor_y ≤ num_rows`,
`editorMoveCursor(ARROW_LEFT)` moves the cursor to the row `cursor_y - 1` and
the column `length` of that row; with `cursor_x == 0` and `cursor_y == 0` it
changes nothing. -/
theorem editorMoveCursor_left_wrap (E : editorConfig) (hx : E.cursor_x = 0)
    (hy0 : 0 ≤ E.cursor_y) (hy1 : E.cursor_y ≤ E.num_rows) :
    (if 0 < E.cursor_y then
      (editorMoveCursor E ARROW_LEFT).cursor_y = E.cursor_y - 1 ∧
      (editorMoveCursor E ARROW_LEFT).cursor_x = (rowAt E.rows (E.cursor_y - 1)).length
    else editorMoveCursor E ARROW_LEFT = E) := by
  have hok : cursorRowOk E := ⟨hy0, hy1, by omega⟩
  obtain ⟨h1, _⟩ := moveCursorSwitch_ok E ARROW_LEFT hok
  obtain ⟨_, k2, k3, k4⟩ := editorMoveCursor_clamp E ARROW_LEFT h1
  by_cases hy : 0 < E.cursor_y
  · rw [if_pos hy, k3, k4, cursorRowLength_eq, moveCursorSwitch_left,
      if_neg (by simp [hx]), if_pos hy]
    simp only []
    rw [if_neg (by omega)]
    exact ⟨trivial, min_self _⟩
  · have hsw : moveCursorSwitch E ARROW_LEFT = E := by
      rw [moveCursorSwitch_left, if_neg (by simp [hx]), if_neg hy]
    rw [if_neg hy]
    unfold editorMoveCursor
    rw [hsw]
    simp only []
    rw [if_neg]
    rw [cursorRowLength_eq, hx]
    split_ifs <;> omega

/-- An instance: from row 2, column 0 of a document of three rows the cursor
lands on row 1, at the length 3 of that row. -/
theorem editorMoveCursor_left_wrap_witness :
    (editorMoveCursor ⟨0, 2, 0, 0, 22, 0, 80, 3,
        [⟨2, 2, [97, 98], [97, 98]⟩, ⟨3, 3, [97, 98, 99], [97, 98, 99]⟩, ⟨1, 1, [97], [97]⟩]⟩
      ARROW_LEFT).cursor_y = 2 - 1 ∧
    (editorMoveCursor ⟨0, 2, 0, 0, 22, 0, 80, 3,
        [⟨2, 2, [97, 98], [97, 98]⟩, ⟨3, 3, [97, 98, 99], [97, 98, 99]⟩, ⟨1, 1, [97], [97]⟩]⟩
      ARROW_LEFT).cursor_x = 3 := by
  have h := editorMoveCursor_left_wrap ⟨0, 2, 0, 0, 22, 0, 80, 3,
      [⟨2, 2, [97, 98], [97, 98]⟩, ⟨3, 3, [97, 98, 99], [97, 98, 99]⟩, ⟨1, 1, [97], [97]⟩]⟩
    rfl (by decide) (by decide)
  rw [if_pos (by decide)] at h
  exact ⟨h.1, h.2⟩

/-- C14, as stated, fails: with the cursor at the end of the only row of a
document, `editorMoveCursor(ARROW_RIGHT)` does not leave the cursor where it
is but moves it to row 1, column 0, the append position. -/
theorem editorMoveCursor_right_last_row :
    (editorMoveCursor ⟨2, 0, 0, 0, 22, 0, 80, 1, [⟨2, 2, [97, 98], [97, 98]⟩]⟩
      ARROW_RIGHT).cursor_y = 1 ∧
    (editorMoveCursor ⟨2, 0, 0, 0, 22, 0, 80, 1, [⟨2, 2, [97, 98], [97, 98]⟩]⟩
      ARROW_RIGHT).cursor_x = 0 ∧
    editorMoveCursor ⟨2, 0, 0, 0, 22, 0, 80, 1, [⟨2, 2, [97, 98], [97, 98]⟩]⟩ ARROW_RIGHT ≠
      ⟨2, 0, 0, 0, 22, 0, 80, 1, [⟨2, 2, [97, 98], [97, 98]⟩]⟩ := by
  decide

/-- C14, amended: with the cursor at the end of an existing row `r`
(`cursor_y == r < num_rows`, `cursor_x ==` the length of row `r`),
`editorMoveCursor(ARROW_RIGHT)` moves the cursor to row `r + 1`, column 0,
whether or not a next line exists; when row `r` is the last line this is the
append position `(num_rows, 0)`. -/
theorem editorMoveCursor_right_wrap (E : editorConfig)
    (hy0 : 0 ≤ E.cursor_y) (hy1 : E.cursor_y < E.num_rows)
    (hx : E.cursor_x = (rowAt E.rows E.cursor_y).length) :
    (editorMoveCursor E ARROW_RIGHT).cursor_y = E.cursor_y + 1 ∧
    (editorMoveCursor E ARROW_RIGHT).cursor_x = 0 ∧
    (editorMoveCursor E ARROW_RIGHT).cursor_y ≤ E.num_rows := by
  have hok : cursorRowOk E := ⟨hy0, by omega, by omega⟩
  obtain ⟨h1, _⟩ := moveCursorSwitch_ok E ARROW_RIGHT hok
  obtain ⟨_, _, k3, k4⟩ := editorMoveCursor_clamp E ARROW_RIGHT h1
  have hsw : moveCursorSwitch E ARROW_RIGHT = { E with cursor_x := 0, cursor_y := E.cursor_y + 1 } := by
    rw [moveCursorSwitch_right E hy1, if_neg (by omega), if_pos hx]
  rw [k3, k4, hsw]
  refine ⟨rfl, ?_, ?_⟩
  · exact min_eq_left (cursorRowLength_nonneg _)
  · show E.cursor_y + 1 ≤ E.num_rows
    omega

/-- An instance: the end of the first of two rows. -/
theorem editorMoveCursor_right_wrap_witness :
    (editorMoveCursor ⟨2, 0, 0, 0, 22, 0, 80, 2,
        [⟨2, 2, [97, 98], [97, 98]⟩, ⟨1, 1, [97], [97]⟩]⟩ ARROW_RIGHT).cursor_y = 0 + 1 ∧
    (editorMoveCursor ⟨2, 0, 0, 0, 22, 0, 80, 2,
        [⟨2, 2, [97, 98], [97, 98]⟩, ⟨1, 1, [97], [97]⟩]⟩ ARROW_RIGHT).cursor_x = 0 := by
  have h := editorMoveCursor_right_wrap ⟨2, 0, 0, 0, 22, 0, 80, 2,
      [⟨2, 2, [97, 98], [97, 98]⟩, ⟨1, 1, [97], [97]⟩]⟩ (by decide) (by decide) (by decide)
  exact ⟨h.1, h.2.1⟩

/-- C12: on a well-formed document with a valid cursor, `screen_rows ≥ 1`
and `0 ≤ row_offset ≤ num_rows`, every key other than quit and save is handled
(the program goes on) and leaves the document well formed and the cursor
valid, with `row_offset` and `screen_rows` unchanged and `num_rows` not
smaller; the keys `ARROW_UP` and `ARROW_DOWN` leave `cursor_x` at the minimum
of its old value and the length of the row reached (0 at the append
position). -/
theorem processKey_cursor_valid (signedChar : Bool) (E : editorConfig) (c : Int)
    (hdoc : docOk E) (hcur : cursorOk E) (hrows : 1 ≤ E.screen_rows)
    (hoff0 : 0 ≤ E.row_offset) (hoff1 : E.row_offset ≤ E.num_rows)
    (hquit : c ≠ CTRL_KEY 113) (hsave : c ≠ CTRL_KEY 115) :
    (∃ E', processKey signedChar E c = some E' ∧ cursorOk E' ∧ docOk E' ∧
      E'.row_offset = E.row_offset ∧ E'.screen_rows = E.screen_rows ∧
      E.num_rows ≤ E'.num_rows) ∧
    (processKey signedChar E ARROW_UP = some (editorMoveCursor E ARROW_UP) ∧
      (editorMoveCursor E ARROW_UP).cursor_x =
        min E.cursor_x (cursorRowLength (editorMoveCursor E ARROW_UP))) ∧
    (processKey signedChar E ARROW_DOWN = some (editorMoveCursor E ARROW_DOWN) ∧
      (editorMoveCursor E ARROW_DOWN).cursor_x =
        min E.cursor_x (cursorRowLength (editorMoveCursor E ARROW_DOWN))) := by
  have hself : cursorOk E ∧ docOk E ∧ E.row_offset = E.row_offset ∧
      E.screen_rows = E.screen_rows ∧ E.num_rows ≤ E.num_rows :=
    ⟨hcur, hdoc, rfl, rfl, Nat.le_refl _⟩
  have hview : ∀ E' : editorConfig, cursorOk E' → sameView E E' →
      cursorOk E' ∧ docOk E' ∧ E'.row_offset = E.row_offset ∧
        E'.screen_rows = E.screen_rows ∧ E.num_rows ≤ E'.num_rows := by
    intro E' h1 h2
    exact ⟨h1, docOk_of_sameView h2 hdoc, h2.2.1, h2.2.2.1, Nat.le_of_eq h2.2.2.2.2.2.1.symm⟩
  refine ⟨?_, ⟨rfl, (editorMoveCursor_up E (cursorOk_cursorRowOk hcur)).2⟩,
    ⟨rfl, (editorMoveCursor_down E (cursorOk_cursorRowOk hcur)).2⟩⟩
  by_cases hpu : c = PAGE_UP
  · subst hpu
    obtain ⟨h1, h2⟩ := pageMove_ok E E.row_offset ARROW_UP hcur hrows hoff0 hoff1
    exact ⟨_, processKey_page_up signedChar E, hview _ h1 h2⟩
  by_cases hpd : c = PAGE_DOWN
  · subst hpd
    obtain ⟨h1, h2⟩ := pageMove_ok E (min (E.num_rows : Int) (E.row_offset + E.screen_rows + 1))
      ARROW_DOWN hcur hrows (by omega) (by omega)
    exact ⟨_, processKey_page_down signedChar E, hview _ h1 h2⟩
  by_cases harrow : c = ARROW_UP ∨ c = ARROW_LEFT ∨ c = ARROW_DOWN ∨ c = ARROW_RIGHT
  · have hkey : processKey signedChar E c = some (editorMoveCursor E c) := by
      rcases harrow with h | h | h | h <;> subst h <;> rfl
    obtain ⟨h1, h2⟩ := editorMoveCursor_ok E c (cursorOk_cursorRowOk hcur)
    exact ⟨_, hkey, hview _ h1 h2⟩
  by_cases hhome : c = HOME_KEY
  · subst hhome
    refine ⟨{ E with cursor_x := 0 }, rfl, hview _ ?_ ⟨rfl, rfl, rfl, rfl, rfl, rfl, rfl⟩⟩
    obtain ⟨hy0, hy1, _, _⟩ := hcur
    refine ⟨hy0, hy1, Int.le_refl 0, ?_⟩
    show (0 : Int) ≤ if E.cursor_y = (E.num_rows : Int) then (0 : Int)
      else ((rowAt E.rows E.cursor_y).length : Int)
    split_ifs <;> omega
  by_cases hend : c = END_KEY
  · subst hend
    by_cases hlt : E.cursor_y < E.num_rows
    · refine ⟨{ E with cursor_x := (rowAt E.rows E.cursor_y).length }, ?_,
        hview _ ?_ ⟨rfl, rfl, rfl, rfl, rfl, rfl, rfl⟩⟩
      · show some (if E.cursor_y < (E.num_rows : Int) then
          { E with cursor_x := ((rowAt E.rows E.cursor_y).length : Int) } else E) = _
        rw [if_pos hlt]
      · obtain ⟨hy0, hy1, _, _⟩ := hcur
        refine ⟨hy0, hy1, by show (0 : Int) ≤ ((rowAt E.rows E.cursor_y).length : Int); omega, ?_⟩
        show ((rowAt E.rows E.cursor_y).length : Int) ≤ if E.cursor_y = (E.num_rows : Int)
          then (0 : Int) else ((rowAt E.rows E.cursor_y).length : Int)
        rw [if_neg (by omega)]
    · refine ⟨E, ?_, hself⟩
      show some (if E.cursor_y < (E.num_rows : Int) then
        { E with cursor_x := ((rowAt E.rows E.cursor_y).length : Int) } else E) = _
      rw [if_neg hlt]
  · have hpage : ¬ (c = PAGE_UP ∨ c = PAGE_DOWN) := by
      rintro (h | h)
      · exact hpu h
      · exact hpd h
    unfold processKey
    rw [if_neg hquit, if_neg hsave, if_neg hpage, if_neg hhome, if_neg hend, if_neg harrow]
    split_ifs
    · exact ⟨E, rfl, hself⟩
    · exact ⟨E, rfl, hself⟩
    · exact ⟨E, rfl, hself⟩
    · obtain ⟨h1, h2, h3, h4, h5⟩ := editorInsertChar_ok signedChar E (intToChar c) hdoc hcur
      exact ⟨_, rfl, h2, h1, h3, h4, h5⟩

/-- An instance: the key `x` typed into the empty document of a 24 by 80
window. -/
theorem processKey_cursor_valid_witness :
    ∃ E', processKey true (initEditor 24 80) 120 = some E' ∧ cursorOk E' ∧ docOk E' ∧
      E'.row_offset = (initEditor 24 80).row_offset ∧
      E'.screen_rows = (initEditor 24 80).screen_rows ∧
      (initEditor 24 80).num_rows ≤ E'.num_rows :=
  (processKey_cursor_valid true (initEditor 24 80) 120 (by decide) (by decide) (by decide)
    (by decide) (by decide) (by decide) (by decide)).1

/-- C15: in every state reached from the empty document by calls of
`editorAppendRow`, `editorInsertChar` and `editorInsertCharAt`, every row's
`render` and `render_length` are the ones `editorUpdateRow` computes from the
row's current content, and `render_length` is the number of bytes of
`render`. -/
theorem reachable_render_consistent (E : editorConfig) (hreach : Reachable E) :
    ∀ row ∈ E.rows,
      row.render = (editorUpdateRow row).render ∧
      row.render_length = (editorUpdateRow row).render_length ∧
      row.render_length = row.render.length := by
  have h : ∀ row ∈ E.rows, renderOk row := by
    induction hreach with
    | init => intro row hmem; cases hmem
    | appendRow E s len _ ih => exact renderOk_editorAppendRow E s len ih
    | insertChar signedChar E c _ ih => exact renderOk_editorInsertChar signedChar E c ih
    | insertCharAt E i col c _ ih =>
      exact renderOk_setRowAt E.rows i _ ih (renderOk_editorInsertCharAt _ _ _)
    | view E cx cy rx ro sr co scs _ ih => exact ih
  intro row hmem
  obtain ⟨h1, h2⟩ := h row hmem
  exact ⟨congrArg erow.render h1.symm, congrArg erow.render_length h1.symm, h2⟩

/-- An instance: a tab typed into the empty document of a 24 by 80 window. -/
theorem reachable_render_consistent_witness :
    (⟨1, 4, [9], [32, 32, 32, 32]⟩ : erow) ∈
      (editorInsertChar true ⟨0, 0, 0, 0, 22, 0, 80, 0, []⟩ 9).rows ∧
    (⟨1, 4, [9], [32, 32, 32, 32]⟩ : erow).render =
      (editorUpdateRow ⟨1, 4, [9], [32, 32, 32, 32]⟩).render :=
  ⟨by decide,
    (reachable_render_consistent _
      (Reachable.insertChar true _ 9 (Reachable.init 0 0 0 0 22 0 80))
      ⟨1, 4, [9], [32, 32, 32, 32]⟩ (by decide)).1⟩

/-- C18: for a non-empty well-formed document whose rows have
`render_length` bytes of render, with `row_offset`, `col_offset`,
`screen_rows` and `screen_cols` not negative, the bytes `editorDrawRows`
appends are, for `y` from 0 to `screen_rows - 1` in order, the row text
followed by `"\x1b[K\r\n"`; the row text is the render of row
`y + row_offset` without its first `col_offset` bytes and cut to at most
`screen_cols` bytes (empty when `col_offset ≥ render_length`) if
`y + row_offset < num_rows`, and the byte `~` otherwise. -/
theorem editorDrawRows_bytes (E : editorConfig) (ab : List Nat)
    (hne : E.num_rows ≠ 0) (hn : E.rows.length = E.num_rows)
    (hrender : ∀ row ∈ E.rows, row.render_length = row.render.length)
    (hro : 0 ≤ E.row_offset) (hco : 0 ≤ E.col_offset)
    (_hsr : 0 ≤ E.screen_rows) (hsc : 0 ≤ E.screen_cols) :
    editorDrawRows E ab =
      ab ++ ((List.range E.screen_rows.toNat).map (fun y : Nat =>
        (if (y : Int) + E.row_offset < E.num_rows then
          ((rowAt E.rows ((y : Int) + E.row_offset)).render.drop E.col_offset.toNat).take
            E.screen_cols.toNat
        else [126]) ++ [27, 91, 75, 13, 10])).flatten ∧
    (∀ row : erow, (row.render_length : Int) ≤ E.col_offset →
      row.render_length = row.render.length →
      (row.render.drop E.col_offset.toNat).take E.screen_cols.toNat = []) := by
  constructor
  · unfold editorDrawRows
    have hfun : (fun (ab : List Nat) (y : Nat) => editorDrawRow E ab (y : Int))
        = (fun (ab : List Nat) (y : Nat) => ab ++
          ((if (y : Int) + E.row_offset < E.num_rows then
            ((rowAt E.rows ((y : Int) + E.row_offset)).render.drop E.col_offset.toNat).take
              E.screen_cols.toNat
          else [126]) ++ [27, 91, 75, 13, 10])) := by
      funext ab y
      exact editorDrawRow_eq E ab y hne hn hrender hro hco hsc
    rw [hfun, foldl_append_eq_flatten]
  · intro row hle hlen
    rw [List.drop_of_length_le (by omega), List.take_nil]

/-- An instance: the row `"abc"` shown from column 1 in a window of two
columns and one text row. -/
theorem editorDrawRows_bytes_witness :
    editorDrawRows ⟨0, 0, 0, 0, 1, 1, 2, 1, [⟨3, 3, [97, 98, 99], [97, 98, 99]⟩]⟩ [] =
      [98, 99, 27, 91, 75, 13, 10] := by
  have h := (editorDrawRows_bytes ⟨0, 0, 0, 0, 1, 1, 2, 1, [⟨3, 3, [97, 98, 99], [97, 98, 99]⟩]⟩
    [] (by decide) (by decide) (by decide) (by decide) (by decide) (by decide) (by decide)).1
  rw [h]
  decide

/-- C11, as stated, fails: on the input `ESC a b c` the bare escape key is
returned although three bytes are consumed, `a` and `b` with it; and where
plain `char` is signed the byte 200 is returned as -56. -/
theorem editorReadKey_not_exact :
    editorReadKey true [.byte 27, .byte 97, .byte 98, .byte 99] = .key ESC [.byte 99] ∧
    editorReadKey true [.byte 200, .byte 99] = .key (-56) [.byte 99] := by
  decide

/-- C11, amended: on an input that starts with a byte other than 0x1b, that
byte alone is consumed and returned as the value of the `char` holding it,
which is the byte itself when it is below 128 (such as 127 and 13) or when
plain `char` is unsigned, the byte minus 256 when it is 128 or more and plain
`char` is signed, and which converts back to the byte in every case; on an
input that starts with 0x1b and a recognized sequence, the named key is
returned and exactly the sequence is consumed, 4 bytes for `ESC [ digit ~`
and 3 bytes for `ESC [ letter` and `ESC O letter`; the reads that follow are
left untouched.  On an input that starts with 0x1b and goes on with no
recognized sequence, the bare escape key is returned and the outcomes of the
`n` reads made after 0x1b are consumed with it, where `n` is 3 when 0x1b is
followed by `[` and a digit, 1 when the first read delivers no byte, and 2
otherwise. -/
theorem editorReadKey_consumes (signedChar : Bool) (rest : List ReadResult) :
    (∀ c : Nat, c ≠ 27 → c < 256 →
      editorReadKey signedChar (.byte c :: rest) = .key (charToInt signedChar c) rest ∧
      intToChar (charToInt signedChar c) = c ∧
      (c < 128 ∨ signedChar = false → charToInt signedChar c = c) ∧
      (128 ≤ c ∧ signedChar = true → charToInt signedChar c = (c : Int) - 256)) ∧
    editorReadKey signedChar (.byte 127 :: rest) = .key 127 rest ∧
    editorReadKey signedChar (.byte 13 :: rest) = .key 13 rest ∧
    (∀ seq ∈ recognizedSequences, ∃ k : Int, k ≠ ESC ∧
      editorReadKey signedChar (.byte 27 :: (seq.map ReadResult.byte ++ rest)) = .key k rest ∧
      (ReadResult.byte 27 :: (seq.map ReadResult.byte ++ rest)).drop (1 + seq.length) = rest ∧
      1 + seq.length = if seq.getD 2 0 = 126 then 4 else 3) ∧
    (∀ input : List ReadResult,
      (∀ seq ∈ recognizedSequences, ¬ (seq.map ReadResult.byte) <+: input) →
      ∃ n : Nat, 1 ≤ n ∧ n ≤ 3 ∧
        editorReadKey signedChar (.byte 27 :: input) = .key ESC (input.drop n) ∧
        (n = 3 ↔ ∃ d r, 48 ≤ d ∧ d ≤ 57 ∧ input = .byte 91 :: .byte d :: r) ∧
        (n = 1 ↔ ∀ c r, input ≠ .byte c :: r)) := by
  refine ⟨?_, ?_, ?_, ?_, ?_⟩
  rotate_left 4
  · intro input h
    obtain ⟨n, h1, h3, heq, hn3, hn1⟩ := readEscapeSequence_unrecognized input h
    refine ⟨n, h1, h3, ?_, hn3, hn1⟩
    show KeyResult.key (readEscapeSequence input).1 (readEscapeSequence input).2 = _
    rw [heq]
  · intro c hc hlt
    refine ⟨?_, intToChar_charToInt signedChar c hlt, ?_, ?_⟩
    rotate_left 2
    · intro h
      unfold charToInt
      rw [if_pos ⟨by simp [h.2], h.1⟩]
    · show (if c = 27 then _ else _) = _
      rw [if_neg hc]
    · intro h
      unfold charToInt
      rcases h with h | h
      · rw [if_neg (by omega)]
      · rw [if_neg (by simp [h])]
  · cases signedChar <;> rfl
  · cases signedChar <;> rfl
  · intro seq hmem
    simp only [recognizedSequences, List.mem_cons, List.mem_singleton, List.not_mem_nil,
      or_false] at hmem
    rcases hmem with h | h | h | h | h | h | h | h | h | h | h | h | h | h | h <;> subst h
    · exact ⟨HOME_KEY, by decide, rfl, rfl, rfl⟩
    · exact ⟨DEL_KEY, by decide, rfl, rfl, rfl⟩
    · exact ⟨END_KEY, by decide, rfl, rfl, rfl⟩
    · exact ⟨PAGE_UP, by decide, rfl, rfl, rfl⟩
    · exact ⟨PAGE_DOWN, by decide, rfl, rfl, rfl⟩
    · exact ⟨HOME_KEY, by decide, rfl, rfl, rfl⟩
    · exact ⟨END_KEY, by decide, rfl, rfl, rfl⟩
    · exact ⟨ARROW_UP, by decide, rfl, rfl, rfl⟩
    · exact ⟨ARROW_DOWN, by decide, rfl, rfl, rfl⟩
    · exact ⟨ARROW_RIGHT, by decide, rfl, rfl, rfl⟩
    · exact ⟨ARROW_LEFT, by decide, rfl, rfl, rfl⟩
    · exact ⟨HOME_KEY, by decide, rfl, rfl, rfl⟩
    · exact ⟨END_KEY, by decide, rfl, rfl, rfl⟩
    · exact ⟨HOME_KEY, by decide, rfl, rfl, rfl⟩
    · exact ⟨END_KEY, by decide, rfl, rfl, rfl⟩

/-- C20: for the call `editorAppendRow("", 0)`, which `editorInsertChar` makes
when the cursor is at the append position, one byte is allocated and the only
index written is the terminator index `len - 1`, which in `size_t` arithmetic
is `SIZE_MAX`: it is not inside the allocation.  The state left by
`initEditor` has the cursor at the append position, so the first character
typed makes this call. -/
theorem appendRow_empty_terminator_outside :
    appendRowAllocated 0 = 1 ∧
    appendRowWrites 0 = [SIZE_MAX] ∧
    ¬ (∀ i ∈ appendRowWrites 0, i ≤ 0) ∧
    ¬ (∀ i ∈ appendRowWrites 0, i < appendRowAllocated 0) ∧
    (initEditor 24 80).cursor_y = (initEditor 24 80).num_rows := by
  decide

end Lb
